import Mathlib

/-!
Verification of the indexed binary heap in `mut-binary-heap`
(`src/binary_heap.rs`).

The heap stores a dense vector `data : Vec<(K, T)>` of key/value pairs
together with a key→position map `keys : HashMap<K, usize>` and a
comparator.  We embed:

* the `HashMap<K, usize>` as an association list `List (K × Nat)` whose
  lookups use a caller-supplied boolean key equality `keq` (the Rust `Eq`
  instance, which may identify structurally different keys);
* the comparator `C : Compare<T>` as a function `T → T → Ordering`;
* the hole-based sift primitives (`sift_up`, `sift_down_range`,
  `sift_down_to_bottom`) as functional loops over the physical `data`
  list: `Hole::move_to` copies the target slot into the current hole and
  redirects the target key's map entry, `Hole::drop` writes the held
  element into the final hole position and sets its map entry.

Out-of-bounds reads (`get_unchecked` under the source's SAFETY
obligations) are modelled as leaving the state unchanged; the map update
done by `Hole` on a key missing from the map (a `.expect` panic in Rust)
is modelled as a no-op.  Both are unreachable while the source's
documented invariants hold.
-/

namespace MutBinaryHeap

/-! ### The association-list model of `HashMap<K, usize>` -/

/-- Lookup, `HashMap::get`: the first entry whose key is `keq`-equal. -/
def alGet {K : Type} (keq : K → K → Bool) (l : List (K × Nat)) (k : K) : Option Nat :=
  (l.find? fun e => keq e.1 k).map (·.2)

/-- Membership, `HashMap::contains_key`. -/
def alContains {K : Type} (keq : K → K → Bool) (l : List (K × Nat)) (k : K) : Bool :=
  l.any fun e => keq e.1 k

/-- In-place value update, `*keys.get_mut(&k) = v`.  The stored key is kept;
if no entry matches (unreachable under the heap invariants, a panic in the
source) the map is unchanged. -/
def alSet {K : Type} (keq : K → K → Bool) (l : List (K × Nat)) (k : K) (v : Nat) :
    List (K × Nat) :=
  l.map fun e => if keq e.1 k then (e.1, v) else e

/-- Insertion, `HashMap::insert`: replaces the value (keeping the stored key)
when the key is present, otherwise adds a new entry. -/
def alInsert {K : Type} (keq : K → K → Bool) (l : List (K × Nat)) (k : K) (v : Nat) :
    List (K × Nat) :=
  if alContains keq l k then alSet keq l k v else l ++ [(k, v)]

/-- Removal, `HashMap::remove` (ignoring the returned value). -/
def alErase {K : Type} (keq : K → K → Bool) (l : List (K × Nat)) (k : K) :
    List (K × Nat) :=
  l.eraseP fun e => keq e.1 k

/-! ### Comparator helpers (`compare::Compare`) -/

/-- The `compares_le` helper: not `Greater`. -/
def cmpLe {T : Type} (cmp : T → T → Ordering) (a b : T) : Bool :=
  !(cmp a b == .gt)

/-- The `compares_lt` helper. -/
def cmpLt {T : Type} (cmp : T → T → Ordering) (a b : T) : Bool :=
  cmp a b == .lt

/-- The `compares_ge` helper: not `Less`. -/
def cmpGe {T : Type} (cmp : T → T → Ordering) (a b : T) : Bool :=
  !(cmp a b == .lt)

/-! ### The heap state -/

/-- The `BinaryHeap<K, T, C>` state: the storage vector, the key→position
map and the comparator. -/
structure Heap (K T : Type) where
  data : List (K × T)
  keys : List (K × Nat)
  cmp : T → T → Ordering

/-! ### Hole-based sift primitives -/

/-- The effect of `Hole::drop`: the held element is written at the hole
position and its map entry is pointed there.  Returns the final state and
the hole's resting position. -/
def holeDrop {K T : Type} (keq : K → K → Bool) (elt : K × T) (pos : Nat)
    (data : List (K × T)) (keys : List (K × Nat)) :
    List (K × T) × List (K × Nat) × Nat :=
  (data.set pos elt, alSet keq keys elt.1 pos, pos)

/-- The loop of `BinaryHeap::sift_up` with the hole element `elt` held
outside the array.  While `start < pos` and `elt` is strictly greater than
the parent, the parent is moved down into the hole (its map entry
updated); on exit the hole is dropped.  The first `Nat` is recursion fuel:
the hole position strictly decreases on every iteration, so any fuel
larger than the starting position makes the fuel branch unreachable. -/
def siftUpLoop {K T : Type} (keq : K → K → Bool) (cmp : T → T → Ordering)
    (start : Nat) (elt : K × T) :
    Nat → Nat → List (K × T) → List (K × Nat) →
    List (K × T) × List (K × Nat) × Nat
  | 0, pos, data, keys => holeDrop keq elt pos data keys
  | fuel + 1, pos, data, keys =>
    if start < pos then
      let parent := (pos - 1) / 2
      match data[parent]? with
      | none => holeDrop keq elt pos data keys
      | some p =>
        if cmpLe cmp elt.2 p.2 then
          holeDrop keq elt pos data keys
        else
          siftUpLoop keq cmp start elt fuel parent (data.set pos p) (alSet keq keys p.1 pos)
    else
      holeDrop keq elt pos data keys

/-- `BinaryHeap::sift_up(start, pos)`: take the element at `pos` out as a
hole and run the loop.  Returns the new storage, the new key map and the
final position. -/
def siftUp {K T : Type} (keq : K → K → Bool) (cmp : T → T → Ordering)
    (start pos : Nat) (data : List (K × T)) (keys : List (K × Nat)) :
    List (K × T) × List (K × Nat) × Nat :=
  match data[pos]? with
  | none => (data, keys, pos)
  | some elt => siftUpLoop keq cmp start elt (pos + 1) pos data keys

/-- The loop of `BinaryHeap::sift_down_range`: while the hole has two
children inside `[0, endi)`, compare against the larger child (ties
resolved by `compares_le`, which selects the *right* child `child + 1`),
stop as soon as the element is `compares_ge` the selected child, and
otherwise move the child up into the hole.  After the loop a last single
child at `endi - 1` is handled. -/
def siftDownLoop {K T : Type} (keq : K → K → Bool) (cmp : T → T → Ordering)
    (endi : Nat) (elt : K × T) :
    Nat → Nat → List (K × T) → List (K × Nat) →
    List (K × T) × List (K × Nat) × Nat
  | 0, pos, data, keys => holeDrop keq elt pos data keys
  | fuel + 1, pos, data, keys =>
    let child := 2 * pos + 1
    if child ≤ endi - 2 then
      match data[child]?, data[child + 1]? with
      | some c, some c1 =>
        let child2 := if cmpLe cmp c.2 c1.2 then child + 1 else child
        let cv := if cmpLe cmp c.2 c1.2 then c1 else c
        if cmpGe cmp elt.2 cv.2 then
          holeDrop keq elt pos data keys
        else
          siftDownLoop keq cmp endi elt fuel child2 (data.set pos cv) (alSet keq keys cv.1 pos)
      | _, _ => holeDrop keq elt pos data keys
    else
      if child = endi - 1 then
        match data[child]? with
        | some c =>
          if cmpLt cmp elt.2 c.2 then
            holeDrop keq elt child (data.set pos c) (alSet keq keys c.1 pos)
          else
            holeDrop keq elt pos data keys
        | none => holeDrop keq elt pos data keys
      else
        holeDrop keq elt pos data keys

/-- `BinaryHeap::sift_down_range(pos, end)`.  The hole position strictly
increases and stays below `endi`, so fuel `endi` suffices for the loop. -/
def siftDownRange {K T : Type} (keq : K → K → Bool) (cmp : T → T → Ordering)
    (pos endi : Nat) (data : List (K × T)) (keys : List (K × Nat)) :
    List (K × T) × List (K × Nat) × Nat :=
  match data[pos]? with
  | none => (data, keys, pos)
  | some elt => siftDownLoop keq cmp endi elt (endi + 1) pos data keys

/-- `BinaryHeap::sift_down(pos)`: `sift_down_range` with `end = len`. -/
def siftDown {K T : Type} (keq : K → K → Bool) (cmp : T → T → Ordering)
    (pos : Nat) (data : List (K × T)) (keys : List (K × Nat)) :
    List (K × T) × List (K × Nat) × Nat :=
  siftDownRange keq cmp pos data.length data keys

/-- The unconditional walk of `BinaryHeap::sift_down_to_bottom`: the hole
follows the larger-child rule all the way down (no stopping comparison),
with a final move onto a single child at `endi - 1`.  Returns the hole
state (storage, map, hole position) before the drop. -/
def siftBottomLoop {K T : Type} (keq : K → K → Bool) (cmp : T → T → Ordering)
    (endi : Nat) (elt : K × T) :
    Nat → Nat → List (K × T) → List (K × Nat) →
    List (K × T) × List (K × Nat) × Nat
  | 0, pos, data, keys => (data, keys, pos)
  | fuel + 1, pos, data, keys =>
    let child := 2 * pos + 1
    if child ≤ endi - 2 then
      match data[child]?, data[child + 1]? with
      | some c, some c1 =>
        let child2 := if cmpLe cmp c.2 c1.2 then child + 1 else child
        let cv := if cmpLe cmp c.2 c1.2 then c1 else c
        siftBottomLoop keq cmp endi elt fuel child2 (data.set pos cv) (alSet keq keys cv.1 pos)
      | _, _ => (data, keys, pos)
    else
      if child = endi - 1 then
        match data[child]? with
        | some c => (data.set pos c, alSet keq keys c.1 pos, child)
        | none => (data, keys, pos)
      else
        (data, keys, pos)

/-- `BinaryHeap::sift_down_to_bottom(pos)`: walk the hole to the bottom
(fuel `endi + 1` suffices since the hole position strictly increases and
stays below `endi`), drop it there, then `sift_up(start = pos, final)`. -/
def siftDownToBottom {K T : Type} (keq : K → K → Bool) (cmp : T → T → Ordering)
    (pos : Nat) (data : List (K × T)) (keys : List (K × Nat)) :
    List (K × T) × List (K × Nat) × Nat :=
  match data[pos]? with
  | none => (data, keys, pos)
  | some elt =>
    let r := siftBottomLoop keq cmp data.length elt (data.length + 1) pos data keys
    let d := r.1.set r.2.2 elt
    let ks := alSet keq r.2.1 elt.1 r.2.2
    siftUp keq cmp pos r.2.2 d ks

/-! ### Rebuild -/

/-- The loop of `BinaryHeap::rebuild`: `sift_down(n)` for
`n = len/2 - 1, …, 1, 0` (the argument counts remaining iterations). -/
def rebuildLoop {K T : Type} (keq : K → K → Bool) (cmp : T → T → Ordering) :
    Nat → List (K × T) → List (K × Nat) → List (K × T) × List (K × Nat)
  | 0, data, keys => (data, keys)
  | n + 1, data, keys =>
    let r := siftDown keq cmp n data keys
    rebuildLoop keq cmp n r.1 r.2.1

/-- `BinaryHeap::rebuild`. -/
def Heap.rebuild {K T : Type} (keq : K → K → Bool) (h : Heap K T) : Heap K T :=
  let r := rebuildLoop keq h.cmp (h.data.length / 2) h.data h.keys
  { h with data := r.1, keys := r.2 }

/-- The incremental branch of `rebuild_tail`: `sift_up(0, i)` for
`i = start, …, len - 1`; the first argument counts remaining iterations. -/
def siftUpRangeLoop {K T : Type} (keq : K → K → Bool) (cmp : T → T → Ordering) :
    Nat → Nat → List (K × T) → List (K × Nat) →
    List (K × T) × List (K × Nat)
  | 0, _, data, keys => (data, keys)
  | n + 1, i, data, keys =>
    let r := siftUp keq cmp 0 i data keys
    siftUpRangeLoop keq cmp n (i + 1) r.1 r.2.1

/-- Fueled floor base-2 logarithm, the `log2_fast` helper of
`rebuild_tail` (`usize::BITS - x.leading_zeros() - 1`); the fuel argument
makes the recursion structural and `x` is always enough fuel. -/
def log2Aux : Nat → Nat → Nat
  | 0, _ => 0
  | fuel + 1, x => if x < 2 then 0 else log2Aux fuel (x / 2) + 1

/-- `log2_fast`. -/
def log2fast (x : Nat) : Nat := log2Aux x x

/-- `BinaryHeap::rebuild_tail(start)`: assuming `data[0..start]` is a valid
heap, repair the appended tail either by a full rebuild or by sifting each
new element up, according to the comparison-count heuristic. -/
def Heap.rebuildTail {K T : Type} (keq : K → K → Bool) (start : Nat) (h : Heap K T) :
    Heap K T :=
  if start = h.data.length then h
  else
    let tailLen := h.data.length - start
    let betterToRebuild :=
      if start < tailLen then true
      else if h.data.length ≤ 2048 then
        decide (2 * h.data.length < tailLen * log2fast start)
      else
        decide (2 * h.data.length < tailLen * 11)
    if betterToRebuild then h.rebuild keq
    else
      let r := siftUpRangeLoop keq h.cmp (h.data.length - start) start h.data h.keys
      { h with data := r.1, keys := r.2 }

/-! ### Public operations -/

/-- `BinaryHeap::len`. -/
def Heap.len {K T : Type} (h : Heap K T) : Nat :=
  h.data.length

/-- `BinaryHeap::is_empty`. -/
def Heap.isEmpty {K T : Type} (h : Heap K T) : Bool :=
  h.len == 0

/-- `BinaryHeap::contains_key`. -/
def Heap.containsKey {K T : Type} (keq : K → K → Bool) (h : Heap K T) (k : K) : Bool :=
  alContains keq h.keys k

/-- `BinaryHeap::peek_with_key`. -/
def Heap.peekWithKey {K T : Type} (h : Heap K T) : Option (K × T) :=
  h.data[0]?

/-- in-place repair after a by-key mutation, given the position found in the
key map; the body of `BinaryHeap::update` after the `keys[key]` lookup:
sift up from the root, and sift down only when the position is unchanged. -/
def Heap.updateAt {K T : Type} (keq : K → K → Bool) (h : Heap K T) (pos : Nat) :
    Heap K T :=
  let r := siftUp keq h.cmp 0 pos h.data h.keys
  if r.2.2 ≠ pos then { h with data := r.1, keys := r.2.1 }
  else
    let r2 := siftDown keq h.cmp pos r.1 r.2.1
    { h with data := r2.1, keys := r2.2.1 }

/-- `BinaryHeap::update(key)`.  The source indexes `self.keys[key]`, which
panics when the key is absent; the panic is modelled as `none`. -/
def Heap.update {K T : Type} (keq : K → K → Bool) (h : Heap K T) (k : K) :
    Option (Heap K T) :=
  (alGet keq h.keys k).map fun pos => h.updateAt keq pos

/-- `BinaryHeap::push(key, item)`.  On a present key the stored pair keeps
its original key (the two `mem::swap`s), receives the new value, and
`update` is run; on an absent key the pair is appended and sifted up.
A stale position outside the storage (a panic in the source, unreachable
on consistent heaps) leaves the heap unchanged. -/
def Heap.push {K T : Type} (keq : K → K → Bool) (h : Heap K T) (k : K) (v : T) :
    Heap K T × Option T :=
  match alGet keq h.keys k with
  | some pos =>
    match h.data[pos]? with
    | none => (h, none)
    | some old =>
      let h' : Heap K T := { h with data := h.data.set pos (old.1, v) }
      (match h'.update keq k with
       | some h'' => h''
       | none => h', some old.2)
  | none =>
    let oldLen := h.data.length
    let data' := h.data ++ [(k, v)]
    let keys' := alInsert keq h.keys k oldLen
    let r := siftUp keq h.cmp 0 oldLen data' keys'
    ({ data := r.1, keys := r.2.1, cmp := h.cmp }, none)

/-- `BinaryHeap::pop_with_key`: pop the last element, swap it into the
root, sift it down to the bottom, and remove the popped root's key. -/
def Heap.popWithKey {K T : Type} (keq : K → K → Bool) (h : Heap K T) :
    Heap K T × Option (K × T) :=
  match h.data.getLast? with
  | none => (h, none)
  | some last =>
    let rest := h.data.dropLast
    if rest.length = 0 then
      ({ h with data := rest, keys := alErase keq h.keys last.1 }, some last)
    else
      match rest[0]? with
      | none => (h, none)
      | some root =>
        let r := siftDownToBottom keq h.cmp 0 (rest.set 0 last) h.keys
        ({ data := r.1, keys := alErase keq r.2.1 root.1, cmp := h.cmp }, some root)

/-- `BinaryHeap::pop`. -/
def Heap.pop {K T : Type} (keq : K → K → Bool) (h : Heap K T) : Heap K T × Option T :=
  let r := h.popWithKey keq
  (r.1, r.2.map (·.2))

/-- `BinaryHeap::remove(key)`: look the position up, pop the last element,
swap it into that position when the heap is still non-empty and the
position is inside it, sift down to the bottom from there, and remove the
extracted pair's key. -/
def Heap.remove {K T : Type} (keq : K → K → Bool) (h : Heap K T) (k : K) :
    Heap K T × Option (K × T) :=
  match alGet keq h.keys k with
  | none => (h, none)
  | some pos =>
    match h.data.getLast? with
    | none => (h, none)
    | some last =>
      let rest := h.data.dropLast
      if rest.length ≠ 0 ∧ pos < rest.length then
        match rest[pos]? with
        | none => (h, none)
        | some atPos =>
          let r := siftDownToBottom keq h.cmp pos (rest.set pos last) h.keys
          ({ data := r.1, keys := alErase keq r.2.1 atPos.1, cmp := h.cmp }, some atPos)
      else
        ({ h with data := rest, keys := alErase keq h.keys last.1 }, some last)

/-- `BinaryHeap::clear` (through `drain`): only the storage vector is
drained; the source never touches the key map here. -/
def Heap.clear {K T : Type} (h : Heap K T) : Heap K T :=
  { h with data := [] }

/-- `BinaryHeap::append(&mut other)`: swap so that `self` is the larger
heap, move `other`'s storage onto the end of `self`'s, and repair with
`rebuild_tail`.  Neither key map is touched by the source.  Returns the
final `(self, other)` pair. -/
def Heap.append {K T : Type} (keq : K → K → Bool) (a b : Heap K T) :
    Heap K T × Heap K T :=
  let s := if a.data.length < b.data.length then b else a
  let o := if a.data.length < b.data.length then a else b
  let start := s.data.length
  let s' : Heap K T := { s with data := s.data ++ o.data }
  (s'.rebuildTail keq start, { o with data := [] })

/-- `FromIterator for BinaryHeap`: push every pair onto the storage,
`insert` its key (later duplicates overwrite the map entry but not the
storage), then rebuild. -/
def Heap.fromIter {K T : Type} (keq : K → K → Bool) (cmp : T → T → Ordering)
    (l : List (K × T)) : Heap K T :=
  let h0 := l.foldl
    (fun (h : Heap K T) kv =>
      { h with data := h.data ++ [kv], keys := alInsert keq h.keys kv.1 h.data.length })
    { data := [], keys := [], cmp := cmp }
  h0.rebuild keq

/-- Arbitrary in-place mutation of the value behind `peek_mut` followed by
the deferred `sift_down(0)` run by `PeekMut::drop`. -/
def Heap.peekMutSet {K T : Type} (keq : K → K → Bool) (h : Heap K T) (w : T) :
    Heap K T :=
  match h.data[0]? with
  | none => h
  | some kv =>
    let d0 := h.data.set 0 (kv.1, w)
    let r := siftDown keq h.cmp 0 d0 h.keys
    { h with data := r.1, keys := r.2.1 }

/-- Arbitrary in-place mutation of the value behind `get_mut(k)` followed by
the `update(k)` run by `RefMut::drop`. -/
def Heap.getMutSet {K T : Type} (keq : K → K → Bool) (h : Heap K T) (k : K) (w : T) :
    Heap K T :=
  match alGet keq h.keys k with
  | none => h
  | some pos =>
    match h.data[pos]? with
    | none => h
    | some kv =>
      let h' : Heap K T := { h with data := h.data.set pos (kv.1, w) }
      (h'.update keq k).getD h'

/-- Repeatedly `pop` (values only), with explicit fuel. -/
def Heap.popList {K T : Type} (keq : K → K → Bool) :
    Nat → Heap K T → List T
  | 0, _ => []
  | n + 1, h =>
    let r := h.popWithKey keq
    match r.2 with
    | none => []
    | some kv => kv.2 :: Heap.popList keq n r.1

/-- Push a list of pairs one by one (discarding the returned old values). -/
def Heap.pushList {K T : Type} (keq : K → K → Bool) (h : Heap K T)
    (l : List (K × T)) : Heap K T :=
  l.foldl (fun h kv => (h.push keq kv.1 kv.2).1) h

/-! ### Ordering and consistency invariants -/

/-- The heap property of claim C1: for every non-root storage index `i`,
the comparator does not rank the value at `i` strictly greater than the
value at its parent `(i - 1) / 2`. -/
def heapProp {K T : Type} (cmp : T → T → Ordering) (l : List (K × T)) : Prop :=
  ∀ i v p, 0 < i → l[i]? = some v → l[(i - 1) / 2]? = some p → cmp v.2 p.2 ≠ .gt

/-- Executable check for `heapProp`. -/
def heapPropB {K T : Type} (cmp : T → T → Ordering) (l : List (K × T)) : Bool :=
  (List.range l.length).all fun i =>
    i == 0 ||
      (match l[i]?, l[(i - 1) / 2]? with
       | some v, some p => !(cmp v.2 p.2 == .gt)
       | _, _ => true)

theorem ordering_beq_false_iff (x y : Ordering) : (x == y) = false ↔ x ≠ y := by
  cases x <;> cases y <;> decide

theorem heapPropB_iff {K T : Type} (cmp : T → T → Ordering) (l : List (K × T)) :
    heapPropB cmp l = true ↔ heapProp cmp l := by
  constructor
  · intro hb i v p hi hv hp
    have hlen : i < l.length := (List.getElem?_eq_some.1 hv).1
    have h1 := (List.all_eq_true.1 hb) i (List.mem_range.2 hlen)
    rw [hv, hp] at h1
    simp only [Bool.or_eq_true, beq_iff_eq, Bool.not_eq_true',
      ordering_beq_false_iff] at h1
    rcases h1 with h1 | h1
    · exact absurd h1 (Nat.pos_iff_ne_zero.mp hi)
    · exact h1
  · intro hp
    apply List.all_eq_true.2
    intro i hi
    rcases Nat.eq_zero_or_pos i with rfl | hpos
    · simp
    have hlen : i < l.length := List.mem_range.1 hi
    have hplen : (i - 1) / 2 < l.length :=
      Nat.lt_of_le_of_lt (Nat.le_trans (Nat.div_le_self _ _) (Nat.sub_le _ _)) hlen
    have hv : l[i]? = some l[i] := List.getElem?_eq_getElem hlen
    have hq : l[(i - 1) / 2]? = some l[(i - 1) / 2] := List.getElem?_eq_getElem hplen
    have hcmp := hp i l[i] l[(i - 1) / 2] hpos hv hq
    rw [hv, hq]
    simp only [Bool.or_eq_true, beq_iff_eq, Bool.not_eq_true',
      ordering_beq_false_iff]
    exact Or.inr hcmp

/-- Lawfulness of a key equality (the Rust `Eq` contract): an equivalence. -/
structure KeqLawful {K : Type} (keq : K → K → Bool) : Prop where
  refl : ∀ a, keq a a = true
  symm : ∀ a b, keq a b = true → keq b a = true
  trans : ∀ a b c, keq a b = true → keq b c = true → keq a c = true

/-- Lawfulness of a comparator (the spec's total preorder): `gt` and `lt`
are opposite, and the induced `≤` (not-`gt`) is transitive. -/
structure LawfulCmp {T : Type} (cmp : T → T → Ordering) : Prop where
  flip : ∀ a b, cmp a b = .gt ↔ cmp b a = .lt
  le_trans : ∀ a b c, cmp a b ≠ .gt → cmp b c ≠ .gt → cmp a c ≠ .gt

/-- Index consistency and key uniqueness (claim C2), together with the
auxiliary facts that make it inductive: the map's keys are pairwise
distinct, the map and storage have equal cardinality, every storage
position is indexed at itself, and every map entry points at a storage
slot holding its key. -/
structure Valid {K T : Type} (keq : K → K → Bool) (h : Heap K T) : Prop where
  nodup : h.keys.Pairwise fun a b => keq a.1 b.1 = false
  size : h.keys.length = h.data.length
  consist : ∀ p kv, h.data[p]? = some kv → alGet keq h.keys kv.1 = some p
  backward : ∀ e ∈ h.keys, ∃ kv, h.data[e.2]? = some kv ∧ keq kv.1 e.1 = true

/-- Executable pairwise-distinctness check for the key map. -/
def pairwiseB {K : Type} (keq : K → K → Bool) : List (K × Nat) → Bool
  | [] => true
  | e :: rest => (rest.all fun f => !(keq e.1 f.1)) && pairwiseB keq rest

theorem pairwiseB_iff {K : Type} (keq : K → K → Bool) (l : List (K × Nat)) :
    pairwiseB keq l = true ↔ l.Pairwise fun a b => keq a.1 b.1 = false := by
  induction l with
  | nil => simp [pairwiseB]
  | cons e rest ih =>
    simp only [pairwiseB, Bool.and_eq_true, List.all_eq_true, List.pairwise_cons, ih]
    constructor
    · rintro ⟨h1, h2⟩
      exact ⟨fun f hf => by simpa using h1 f hf, h2⟩
    · rintro ⟨h1, h2⟩
      exact ⟨fun f hf => by simpa using h1 f hf, h2⟩

/-- Executable check for `Valid`. -/
def validB {K T : Type} (keq : K → K → Bool) (h : Heap K T) : Bool :=
  pairwiseB keq h.keys &&
  (h.keys.length == h.data.length) &&
  ((List.range h.data.length).all fun p =>
    match h.data[p]?, alGet keq h.keys with
    | some kv, g => g kv.1 == some p
    | none, _ => false) &&
  (h.keys.all fun e =>
    match h.data[e.2]? with
    | some kv => keq kv.1 e.1
    | none => false)

theorem validB_iff {K T : Type} (keq : K → K → Bool) (h : Heap K T) :
    validB keq h = true ↔ Valid keq h := by
  unfold validB
  simp only [Bool.and_eq_true, beq_iff_eq, List.all_eq_true]
  constructor
  · rintro ⟨⟨⟨h1, h2⟩, h3⟩, h4⟩
    refine ⟨(pairwiseB_iff keq _).1 h1, h2, ?_, ?_⟩
    · intro p kv hkv
      have hlen : p < h.data.length := (List.getElem?_eq_some.1 hkv).1
      have := h3 p (List.mem_range.2 hlen)
      rw [hkv] at this
      simpa using this
    · intro e he
      have := h4 e he
      cases hkv : h.data[e.2]? with
      | none => rw [hkv] at this; simp at this
      | some kv => rw [hkv] at this; exact ⟨kv, rfl, by simpa using this⟩
  · intro hV
    refine ⟨⟨⟨(pairwiseB_iff keq _).2 hV.nodup, hV.size⟩, ?_⟩, ?_⟩
    · intro p hp
      have hlen : p < h.data.length := List.mem_range.1 hp
      have hv : h.data[p]? = some h.data[p] := List.getElem?_eq_getElem hlen
      rw [hv]
      simpa using hV.consist p _ hv
    · intro e he
      obtain ⟨kv, hkv, hk⟩ := hV.backward e he
      rw [hkv]
      exact hk

/-! ### Concrete comparators and example heaps -/

/-- Structural key equality on `Nat`, the `Eq` of the examples. -/
def natKeq : Nat → Nat → Bool := fun a b => a == b

/-- `MaxComparator` over `Nat` values. -/
def natCmp : Nat → Nat → Ordering := compare

/-- `MaxComparator` over `Int` values. -/
def intCmp : Int → Int → Ordering := compare

theorem natKeq_lawful : KeqLawful natKeq := by
  refine ⟨?_, ?_, ?_⟩ <;> simp +contextual [natKeq]

theorem natCmp_lawful : LawfulCmp natCmp := by
  constructor
  · intro a b
    simp only [natCmp, Nat.compare_eq_gt, Nat.compare_eq_lt]
  · intro a b c hab hbc
    simp only [natCmp, ne_eq, Nat.compare_eq_gt] at *
    omega

/-- The empty max-order heap over `Nat` keys and values. -/
def natEmpty : Heap Nat Nat := { data := [], keys := [], cmp := natCmp }

/-- The 7-element heap built by pushing
`(0,20), (1,2), (2,19), (3,1), (4,1), (5,18), (6,18)` in order. -/
def exampleRemoveHeap : Heap Nat Nat :=
  Heap.pushList natKeq natEmpty [(0,20),(1,2),(2,19),(3,1),(4,1),(5,18),(6,18)]

/-! ### Claim C1 -/

/-- C1: the claimed invariant "the heap property holds after every public
operation, in particular immediately after `remove(k)` on any valid
non-empty heap" fails on the code: on the valid 7-element heap built by
pushes (whose heap property we check), `remove(&3)` swaps the last element
(value 18) into position 3 and `sift_down_to_bottom(3)` can only move it
below position 3, so the result stores 18 at index 3 under its parent at
index 1 holding 2, which the comparator ranks strictly greater. -/
theorem c1_remove_violates_heap_property :
    heapProp natCmp exampleRemoveHeap.data ∧
    Valid natKeq exampleRemoveHeap ∧
    (exampleRemoveHeap.remove natKeq 3).1.data
      = [(0,20),(1,2),(2,19),(6,18),(4,1),(5,18)] ∧
    ¬ heapProp natCmp (exampleRemoveHeap.remove natKeq 3).1.data := by
  refine ⟨(heapPropB_iff _ _).1 (by decide), (validB_iff _ _).1 (by decide),
    by decide, fun hp => ?_⟩
  exact hp 3 (6, 18) (1, 2) (by decide) (by decide) (by decide) (by decide)

/-! ### Claim C2, counterexample part -/

/-- C2 counterexample: bulk construction from `[(0,1), (0,2)]` (a duplicate
key) keeps both pairs in storage but only one map entry, so the map and
storage cardinalities differ and key 0 sits at two distinct positions,
contradicting the claimed invariant for heaps reachable through bulk
construction from an iterator with duplicate keys. -/
theorem c2_duplicate_key_counterexample :
    (Heap.fromIter natKeq natCmp [(0,1),(0,2)]).data = [(0,2),(0,1)] ∧
    (Heap.fromIter natKeq natCmp [(0,1),(0,2)]).keys = [(0,1)] ∧
    ¬ ((Heap.fromIter natKeq natCmp [(0,1),(0,2)]).keys.length
        = (Heap.fromIter natKeq natCmp [(0,1),(0,2)]).data.length) := by
  exact ⟨by decide, by decide, by decide⟩

/-! ### Claim C4 -/

/-- C4: the claim "after `clear()` both the storage and the key index are
empty, so `contains_key` is false for previously present keys" fails on
the code: `clear` only drains the storage vector and never touches the
key map, so after clearing the 7-element example heap the map still has
all 7 entries and `contains_key(&3)` still returns true. -/
theorem c4_clear_leaves_index :
    (exampleRemoveHeap.clear).data = [] ∧
    Heap.isEmpty (exampleRemoveHeap.clear) = true ∧
    (exampleRemoveHeap.clear).keys.length = 7 ∧
    Heap.containsKey natKeq (exampleRemoveHeap.clear) 3 = true := by
  exact ⟨by decide, by decide, by decide, by decide⟩

/-! ### Claim C5 -/

/-- Max-order heap A of the spec's merge example, keys 0–4. -/
def exampleAppendA : Heap Nat Int :=
  Heap.pushList natKeq { data := [], keys := [], cmp := intCmp }
    [(0,-10),(1,1),(2,2),(3,3),(4,3)]

/-- Max-order heap B of the spec's merge example, keys 5–7. -/
def exampleAppendB : Heap Nat Int :=
  Heap.pushList natKeq { data := [], keys := [], cmp := intCmp }
    [(5,-20),(6,5),(7,43)]

/-- C5: the merge claim fails on the code: `append` moves `other`'s storage
into `self` and repairs the array, but neither key map is touched, so the
merged heap's index has no entry for B's keys (lookups fail; in the source
the repair's `Hole` update even hits the `expect` panic on those keys) and
B's map keeps its stale entries even though B's storage is empty. -/
theorem c5_append_loses_index :
    (Heap.append natKeq exampleAppendA exampleAppendB).1.data.length = 8 ∧
    alGet natKeq (Heap.append natKeq exampleAppendA exampleAppendB).1.keys 7 = none ∧
    Heap.containsKey natKeq (Heap.append natKeq exampleAppendA exampleAppendB).1 7
      = false ∧
    (Heap.append natKeq exampleAppendA exampleAppendB).2.data = [] ∧
    (Heap.append natKeq exampleAppendA exampleAppendB).2.keys
      = [(5,1),(6,2),(7,0)] := by
  exact ⟨by decide, by decide, by decide, by decide, by decide⟩

/-! ### Claim C7 -/

/-- C7: `update(k)` hits the panicking `self.keys[key]` lookup (modelled as
`none`) exactly when the key is absent from the index, and returns
normally (`some`) exactly when `contains_key(&k)` holds. -/
theorem alGet_none_iff {K : Type} (keq : K → K → Bool) (l : List (K × Nat))
    (k : K) : alGet keq l k = none ↔ alContains keq l k = false := by
  unfold alGet alContains
  cases hf : l.find? (fun e => keq e.1 k) with
  | none =>
    simp only [Option.map_none', true_iff, Bool.eq_false_iff, ne_eq]
    intro hany
    obtain ⟨e, he, hk⟩ := List.any_eq_true.1 hany
    exact (List.find?_eq_none.1 hf e he) hk
  | some e =>
    simp only [Option.map_some', reduceCtorEq, false_iff, Bool.not_eq_false]
    refine List.any_eq_true.2 ⟨e, ?_, ?_⟩
    · exact List.mem_of_find?_eq_some hf
    · exact @List.find?_some _ (fun e => keq e.1 k) e l hf

/-- C7: `update(k)` hits the panicking `self.keys[key]` lookup (modelled as
`none`) exactly when the key is absent from the index, and returns
normally (`some`) exactly when `contains_key(&k)` holds. -/
theorem c7_update_panics_iff_absent {K T : Type} (keq : K → K → Bool)
    (h : Heap K T) (k : K) :
    h.update keq k = none ↔ h.containsKey keq k = false := by
  unfold Heap.update Heap.containsKey
  rw [Option.map_eq_none']
  exact alGet_none_iff keq h.keys k

/-! ### Claim C9 -/

/-- C9 counterexample: sifting down from the root of
`[(0,1), (1,5), (2,5)]` (both children equal to 5) moves the *right*
child `(2,5)` (index 2) into the root, not the left child `(1,5)` as the
claim's tie-break asserts. -/
theorem c9_tie_counterexample :
    (siftDownRange natKeq natCmp 0 3 [(0,1),(1,5),(2,5)] [(0,0),(1,1),(2,2)]).1
      = [(2,5),(1,5),(0,1)] ∧
    (siftDownRange natKeq natCmp 0 3 [(0,1),(1,5),(2,5)] [(0,0),(1,1),(2,2)]).1[0]?
      ≠ some (1,5) := by
  exact ⟨by decide, by decide⟩

/-- C9 as amended: during sift-down with two children in range, when the
left child is not greater than the right child — in particular on ties —
the *right* child `2*pos + 2` is the one compared against and descended
into (the source adds `compares_le(left, right)` to the child index). -/
theorem c9_amended_tie_selects_right {K T : Type} (keq : K → K → Bool)
    (cmp : T → T → Ordering) (endi : Nat) (elt : K × T) (fuel pos : Nat)
    (data : List (K × T)) (keys : List (K × Nat)) (c c1 : K × T)
    (hc : data[2 * pos + 1]? = some c) (hc1 : data[2 * pos + 1 + 1]? = some c1)
    (hin : 2 * pos + 1 ≤ endi - 2) (hle : cmp c.2 c1.2 ≠ .gt)
    (hdesc : cmp elt.2 c1.2 = .lt) :
    siftDownLoop keq cmp endi elt (fuel + 1) pos data keys
      = siftDownLoop keq cmp endi elt fuel (2 * pos + 2)
          (data.set pos c1) (alSet keq keys c1.1 pos) := by
  have hle' : cmpLe cmp c.2 c1.2 = true := by
    unfold cmpLe
    rw [(ordering_beq_false_iff _ _).2 hle]
    rfl
  have hge' : cmpGe cmp elt.2 c1.2 = false := by
    unfold cmpGe
    rw [hdesc]
    rfl
  conv_lhs => rw [siftDownLoop]
  simp only [if_pos hin, hc, hc1, hle', hge', if_true, Bool.false_eq_true,
    if_false]

/-- Witness for the amended C9: a tie between the two children of the root
descends into the right child. -/
theorem c9_amended_witness :
    (([(0,1),(1,5),(2,5)] : List (Nat × Nat))[2 * 0 + 1]? = some (1,5)) ∧
    (([(0,1),(1,5),(2,5)] : List (Nat × Nat))[2 * 0 + 1 + 1]? = some (2,5)) ∧
    2 * 0 + 1 ≤ 3 - 2 ∧ natCmp 5 5 ≠ .gt ∧ natCmp 1 5 = .lt ∧
    siftDownLoop natKeq natCmp 3 (0,1) 4 0 [(0,1),(1,5),(2,5)] [(0,0),(1,1),(2,2)]
      = siftDownLoop natKeq natCmp 3 (0,1) 3 (2 * 0 + 2)
          (([(0,1),(1,5),(2,5)] : List (Nat × Nat)).set 0 (2,5))
          (alSet natKeq [(0,0),(1,1),(2,2)] 2 0) :=
  ⟨by decide, by decide, by decide, by decide, by decide,
    c9_amended_tie_selects_right natKeq natCmp 3 (0,1) 3 0
      [(0,1),(1,5),(2,5)] [(0,0),(1,1),(2,2)] (1,5) (2,5)
      (by decide) (by decide) (by decide) (by decide) (by decide)⟩

/-! ### Claim C10 -/

theorem alGet_congr {K : Type} {keq : K → K → Bool} (hkl : KeqLawful keq)
    (l : List (K × Nat)) {k k' : K} (hkk : keq k k' = true) :
    alGet keq l k = alGet keq l k' := by
  unfold alGet
  have hfun : (fun (e : K × Nat) => keq e.1 k) = fun e => keq e.1 k' := by
    funext e
    cases h1 : keq e.1 k with
    | true => exact (hkl.trans _ _ _ h1 hkk).symm
    | false =>
      cases h2 : keq e.1 k' with
      | true =>
        have := hkl.trans _ _ _ h2 (hkl.symm _ _ hkk)
        rw [h1] at this
        exact absurd this (by simp)
      | false => rfl
  rw [hfun]

theorem remove_root_eq_pop {K T : Type} (keq : K → K → Bool)
    (h : Heap K T) (k : K) (kv : K × T) (hkl : KeqLawful keq)
    (hV : Valid keq h) (h0 : h.data[0]? = some kv) (hk : keq k kv.1 = true) :
    h.remove keq k = h.popWithKey keq := by
  have hget : alGet keq h.keys k = some 0 := by
    rw [alGet_congr hkl h.keys hk]
    exact hV.consist 0 kv h0
  unfold Heap.remove Heap.popWithKey
  rw [hget]
  cases hl : h.data.getLast? with
  | none =>
    have hnil : h.data = [] := List.getLast?_eq_none_iff.1 hl
    simp [hnil] at h0
  | some last =>
    dsimp only
    by_cases hr : h.data.dropLast.length = 0
    · rw [if_neg (by omega), if_pos hr]
    · rw [if_pos (by omega), if_neg hr]

/-- C10: removing by a key that the index maps to the root position is the
same operation as `pop_with_key`: same returned pair, identical final
storage, key map and comparator.  On a valid heap the hypothesis holds
exactly for keys equal to the key stored at position 0. -/
theorem c10_remove_root_eq_pop {K T : Type} (keq : K → K → Bool)
    (h : Heap K T) (k : K) (kv : K × T) (hkl : KeqLawful keq)
    (hV : Valid keq h) (h0 : h.data[0]? = some kv) (hk : keq k kv.1 = true) :
    h.remove keq k = h.popWithKey keq :=
  remove_root_eq_pop keq h k kv hkl hV h0 hk

/-! ### Association-list lemmas -/

section AListLemmas

variable {K : Type} {keq : K → K → Bool}

theorem alGet_some_mem {l : List (K × Nat)} {k : K} {v : Nat}
    (h : alGet keq l k = some v) : ∃ e ∈ l, keq e.1 k = true ∧ e.2 = v := by
  unfold alGet at h
  cases hf : l.find? (fun e => keq e.1 k) with
  | none => rw [hf] at h; cases h
  | some e =>
    rw [hf] at h
    refine ⟨e, List.mem_of_find?_eq_some hf, ?_, ?_⟩
    · exact @List.find?_some _ (fun e => keq e.1 k) e l hf
    · simpa using h

theorem alGet_isSome_of_mem (hkl : KeqLawful keq) {l : List (K × Nat)}
    {e : K × Nat} (he : e ∈ l) : alGet keq l e.1 ≠ none := by
  intro hn
  unfold alGet at hn
  rw [Option.map_eq_none'] at hn
  exact (List.find?_eq_none.1 hn e he) (hkl.refl e.1)

theorem alSet_length (l : List (K × Nat)) (k : K) (v : Nat) :
    (alSet keq l k v).length = l.length := by
  simp [alSet]

theorem alSet_map_fst (l : List (K × Nat)) (k : K) (v : Nat) :
    (alSet keq l k v).map (·.1) = l.map (·.1) := by
  induction l with
  | nil => rfl
  | cons e rest ih =>
    simp only [alSet, List.map_cons] at *
    by_cases h : keq e.1 k = true
    · simp [h, ih]
    · simp only [Bool.not_eq_true] at h
      simp [h, ih]

theorem alSet_nodup {l : List (K × Nat)} (k : K) (v : Nat)
    (h : l.Pairwise fun a b => keq a.1 b.1 = false) :
    (alSet keq l k v).Pairwise fun a b => keq a.1 b.1 = false := by
  unfold alSet
  rw [List.pairwise_map]
  refine h.imp_of_mem ?_
  intro a b _ _ hab
  rcases ha : keq a.1 k <;> rcases hb : keq b.1 k <;> simp [ha, hb, hab]

theorem alGet_alSet_self (hkl : KeqLawful keq) {l : List (K × Nat)} {k : K}
    (v : Nat) (h : alGet keq l k ≠ none) :
    alGet keq (alSet keq l k v) k = some v := by
  induction l with
  | nil => simp [alGet] at h
  | cons e rest ih =>
    by_cases hk : keq e.1 k = true
    · unfold alSet alGet
      simp only [List.map_cons, hk, if_true]
      rw [List.find?_cons_of_pos _ (by simpa using hk)]
      rfl
    · have hk' : keq e.1 k = false := by simpa using hk
      unfold alGet at h
      unfold alSet alGet
      simp only [List.map_cons, hk', if_false, Bool.false_eq_true]
      rw [List.find?_cons_of_neg _ (by simp [hk'])] at h
      rw [List.find?_cons_of_neg _ (by simp [hk'])]
      exact ih h

theorem alGet_alSet_other (hkl : KeqLawful keq) {l : List (K × Nat)}
    {k k' : K} (v : Nat) (h : keq k' k = false) :
    alGet keq (alSet keq l k v) k' = alGet keq l k' := by
  induction l with
  | nil => rfl
  | cons e rest ih =>
    by_cases hk : keq e.1 k = true
    · have hek' : keq e.1 k' = false := by
        rcases h2 : keq e.1 k' with _ | _
        · rfl
        · have h3 := hkl.trans _ _ _ (hkl.symm _ _ hk) h2
          have h4 := hkl.symm _ _ h3
          rw [h4] at h
          cases h
      unfold alSet alGet at *
      simp only [List.map_cons, hk, if_true]
      rw [List.find?_cons_of_neg _ (by simp [hek']),
        List.find?_cons_of_neg _ (by simp [hek'])]
      exact ih
    · have hk' : keq e.1 k = false := by simpa using hk
      unfold alSet alGet at *
      simp only [List.map_cons, hk', if_false, Bool.false_eq_true]
      rcases h2 : keq e.1 k' with _ | _
      · rw [List.find?_cons_of_neg _ (by simp [h2]),
          List.find?_cons_of_neg _ (by simp [h2])]
        exact ih
      · rw [List.find?_cons_of_pos _ (by simpa using h2),
          List.find?_cons_of_pos _ (by simpa using h2)]

theorem alGet_mem_eq (hkl : KeqLawful keq) {l : List (K × Nat)}
    (hnd : l.Pairwise fun a b => keq a.1 b.1 = false) {e : K × Nat} {v : Nat}
    (he : e ∈ l) (h : alGet keq l e.1 = some v) : e.2 = v := by
  induction l with
  | nil => cases he
  | cons f rest ih =>
    rcases List.mem_cons.1 he with rfl | he'
    · unfold alGet at h
      rw [List.find?_cons_of_pos _ (by simpa using hkl.refl e.1)] at h
      simpa using h
    · have hfe : keq f.1 e.1 = false := (List.pairwise_cons.1 hnd).1 e he'
      unfold alGet at h
      rw [List.find?_cons_of_neg _ (by simp [hfe])] at h
      exact ih (List.pairwise_cons.1 hnd).2 he' h

theorem alErase_other (hkl : KeqLawful keq) {l : List (K × Nat)} {k k' : K}
    (h : keq k' k = false) :
    alGet keq (alErase keq l k) k' = alGet keq l k' := by
  induction l with
  | nil => rfl
  | cons e rest ih =>
    by_cases hk : keq e.1 k = true
    · have hek' : keq e.1 k' = false := by
        rcases h2 : keq e.1 k' with _ | _
        · rfl
        · have h3 := hkl.trans _ _ _ (hkl.symm _ _ hk) h2
          have h4 := hkl.symm _ _ h3
          rw [h4] at h
          cases h
      unfold alErase alGet
      rw [List.eraseP_cons_of_pos (by simpa using hk),
        List.find?_cons_of_neg _ (by simp [hek'])]
    · have hk' : keq e.1 k = false := by simpa using hk
      unfold alErase alGet at *
      rw [List.eraseP_cons_of_neg (by simp [hk'])]
      rcases h2 : keq e.1 k' with _ | _
      · rw [List.find?_cons_of_neg _ (by simp [h2]),
          List.find?_cons_of_neg _ (by simp [h2])]
        exact ih
      · rw [List.find?_cons_of_pos _ (by simpa using h2),
          List.find?_cons_of_pos _ (by simpa using h2)]

theorem alErase_self (hkl : KeqLawful keq) {l : List (K × Nat)} {k : K}
    (hnd : l.Pairwise fun a b => keq a.1 b.1 = false) :
    alGet keq (alErase keq l k) k = none := by
  induction l with
  | nil => rfl
  | cons e rest ih =>
    by_cases hk : keq e.1 k = true
    · unfold alErase alGet
      rw [List.eraseP_cons_of_pos (by simpa using hk), Option.map_eq_none',
        List.find?_eq_none]
      intro f hf
      simp only [Bool.not_eq_true]
      rcases h2 : keq f.1 k with _ | _
      · rfl
      · have hef := hkl.trans _ _ _ hk (hkl.symm _ _ h2)
        have := (List.pairwise_cons.1 hnd).1 f hf
        rw [hef] at this
        cases this
    · have hk' : keq e.1 k = false := by simpa using hk
      unfold alErase alGet at *
      rw [List.eraseP_cons_of_neg (by simp [hk']),
        List.find?_cons_of_neg _ (by simp [hk'])]
      exact ih (List.pairwise_cons.1 hnd).2

theorem alErase_length {l : List (K × Nat)} {k : K} {v : Nat}
    (h : alGet keq l k = some v) : (alErase keq l k).length = l.length - 1 := by
  obtain ⟨e, he, hk, _⟩ := alGet_some_mem h
  exact List.length_eraseP_of_mem he hk

theorem alErase_nodup {l : List (K × Nat)} (k : K)
    (h : l.Pairwise fun a b => keq a.1 b.1 = false) :
    (alErase keq l k).Pairwise fun a b => keq a.1 b.1 = false :=
  List.Pairwise.sublist (List.eraseP_sublist l) h

theorem alErase_subset {l : List (K × Nat)} (k : K) :
    ∀ e ∈ alErase keq l k, e ∈ l :=
  fun _ he => (List.eraseP_sublist l).subset he

theorem alErase_not_mem (hkl : KeqLawful keq) {l : List (K × Nat)} {k : K}
    (hnd : l.Pairwise fun a b => keq a.1 b.1 = false)
    {e : K × Nat} (he : e ∈ alErase keq l k) : keq e.1 k = false := by
  rcases h2 : keq e.1 k with _ | _
  · rfl
  · have h3 := alGet_isSome_of_mem hkl he
    rw [alGet_congr hkl _ h2] at h3
    rw [alErase_self hkl hnd] at h3
    exact absurd rfl h3

theorem alInsert_absent {l : List (K × Nat)} {k : K} (v : Nat)
    (h : alContains keq l k = false) :
    alInsert keq l k v = l ++ [(k, v)] := by
  unfold alInsert
  rw [h]
  rfl

theorem alGet_append_other {l : List (K × Nat)} {k k' : K} (v : Nat)
    (h : keq k k' = false) :
    alGet keq (l ++ [(k, v)]) k' = alGet keq l k' := by
  unfold alGet
  rw [List.find?_append]
  cases hf : l.find? (fun e => keq e.1 k') with
  | none => simp [Option.or, h]
  | some e => simp [Option.or]

theorem alGet_append_self (hkl : KeqLawful keq) {l : List (K × Nat)} {k : K}
    (v : Nat) (h : alContains keq l k = false) :
    alGet keq (l ++ [(k, v)]) k = some v := by
  unfold alGet
  rw [List.find?_append]
  have hn : l.find? (fun e => keq e.1 k) = none := by
    rw [List.find?_eq_none]
    intro e he hk
    unfold alContains at h
    have : l.any (fun e => keq e.1 k) = true := List.any_eq_true.2 ⟨e, he, hk⟩
    rw [h] at this
    cases this
  rw [hn]
  simp [Option.or, hkl.refl k]

end AListLemmas

/-! ### Hole invariants for the key map -/

section HoleKeys

variable {K T : Type} {keq : K → K → Bool} {cmp : T → T → Ordering}

/-- Invariant of a hole state during a sift: the hole is at `pos`, the
pair `elt` is held outside, every other pair's map entry points at its
position, `elt`'s key has some (stale) entry, and all keys are pairwise
distinct. -/
structure HoleInv (keq : K → K → Bool) (data : List (K × T))
    (keys : List (K × Nat)) (elt : K × T) (pos : Nat) : Prop where
  pos_lt : pos < data.length
  nodup : keys.Pairwise fun a b => keq a.1 b.1 = false
  consist : ∀ p kv, data[p]? = some kv → p ≠ pos → alGet keq keys kv.1 = some p
  elt_mem : alGet keq keys elt.1 ≠ none
  uniq : ∀ p q kvp kvq, data[p]? = some kvp → data[q]? = some kvq →
    p ≠ q → p ≠ pos → q ≠ pos → keq kvp.1 kvq.1 = false
  uniqE : ∀ p kv, data[p]? = some kv → p ≠ pos → keq kv.1 elt.1 = false

/-- Conclusions of a completed sift (hole dropped) relative to the hole
state it started from. -/
structure SiftKeysOut (keq : K → K → Bool) (data : List (K × T))
    (keys : List (K × Nat)) (elt : K × T) (pos : Nat)
    (r : List (K × T) × List (K × Nat) × Nat) : Prop where
  len_data : r.1.length = data.length
  len_keys : r.2.1.length = keys.length
  fst_keys : r.2.1.map (·.1) = keys.map (·.1)
  nodup : r.2.1.Pairwise fun a b => keq a.1 b.1 = false
  consist : ∀ (q : Nat) (kv : K × T), r.1[q]? = some kv →
    alGet keq r.2.1 kv.1 = some q
  pos_lt : r.2.2 < r.1.length
  elt_at : r.1[r.2.2]? = some elt
  prov : ∀ (q : Nat) (kv : K × T), r.1[q]? = some kv →
    (∃ q0 : Nat, data[q0]? = some kv ∧ q0 ≠ pos) ∨ kv = elt
  rev : ∀ (q0 : Nat) (kv : K × T), data[q0]? = some kv → q0 ≠ pos →
    ∃ q : Nat, r.1[q]? = some kv
  ext : ∀ k', (∀ (q : Nat) (kv : K × T), data[q]? = some kv → q ≠ pos →
      keq kv.1 k' = false) →
    keq elt.1 k' = false → alGet keq r.2.1 k' = alGet keq keys k'

/-- Dropping the hole satisfies the sift conclusions. -/
theorem holeDrop_out (hkl : KeqLawful keq) {data : List (K × T)}
    {keys : List (K × Nat)} {elt : K × T} {pos : Nat}
    (hinv : HoleInv keq data keys elt pos) :
    SiftKeysOut keq data keys elt pos (holeDrop keq elt pos data keys) := by
  unfold holeDrop
  refine ⟨by simp, alSet_length _ _ _, alSet_map_fst _ _ _,
    alSet_nodup _ _ hinv.nodup, ?_, by simpa using hinv.pos_lt,
    List.getElem?_set_self hinv.pos_lt, ?_, ?_, ?_⟩
  · intro q kv hq
    by_cases hqe : q = pos
    · subst hqe
      rw [List.getElem?_set_self hinv.pos_lt] at hq
      cases hq
      exact alGet_alSet_self hkl _ hinv.elt_mem
    · rw [List.getElem?_set_ne (fun h => hqe h.symm)] at hq
      rw [alGet_alSet_other hkl _ (hinv.uniqE q kv hq hqe)]
      exact hinv.consist q kv hq hqe
  · intro q kv hq
    by_cases hqe : q = pos
    · subst hqe
      rw [List.getElem?_set_self hinv.pos_lt] at hq
      cases hq
      exact Or.inr rfl
    · rw [List.getElem?_set_ne (fun h => hqe h.symm)] at hq
      exact Or.inl ⟨q, hq, hqe⟩
  · intro q0 kv hq0 hne
    exact ⟨q0, by rw [List.getElem?_set_ne (fun h => hne h.symm)]; exact hq0⟩
  · intro k' _ heltk
    have hke : keq k' elt.1 = false := by
      rcases h2 : keq k' elt.1 with _ | _
      · rfl
      · rw [hkl.symm _ _ h2] at heltk
        cases heltk
    exact alGet_alSet_other hkl _ hke

/-- Moving the hole to an occupied slot `j` preserves the hole invariant. -/
theorem holeMove_inv (hkl : KeqLawful keq) {data : List (K × T)}
    {keys : List (K × Nat)} {elt : K × T} {pos j : Nat} {kvj : K × T}
    (hinv : HoleInv keq data keys elt pos)
    (hj : data[j]? = some kvj) (hne : j ≠ pos) :
    HoleInv keq (data.set pos kvj) (alSet keq keys kvj.1 pos) elt j := by
  have hjlt : j < data.length := (List.getElem?_eq_some.1 hj).1
  have hkvj : alGet keq keys kvj.1 = some j := hinv.consist j kvj hj hne
  refine ⟨by simpa using hjlt, alSet_nodup _ _ hinv.nodup, ?_, ?_, ?_, ?_⟩
  · intro p kv hp hpj
    by_cases hpe : p = pos
    · subst hpe
      rw [List.getElem?_set_self hinv.pos_lt] at hp
      obtain rfl : kvj = kv := Option.some.inj hp
      rw [alGet_alSet_self hkl _ (by rw [hkvj]; exact fun h => by cases h)]
    · rw [List.getElem?_set_ne (fun h => hpe h.symm)] at hp
      have hdist : keq kv.1 kvj.1 = false := hinv.uniq p j kv kvj hp hj hpj hpe hne
      rw [alGet_alSet_other hkl _ hdist]
      exact hinv.consist p kv hp hpe
  · have hdist : keq elt.1 kvj.1 = false := by
      rcases h2 : keq elt.1 kvj.1 with _ | _
      · rfl
      · have := hinv.uniqE j kvj hj hne
        rw [hkl.symm _ _ h2] at this
        cases this
    rw [alGet_alSet_other hkl _ hdist]
    exact hinv.elt_mem
  · intro p q kvp kvq hp hq hpq hpj hqj
    by_cases hpe : p = pos
    · subst hpe
      rw [List.getElem?_set_self hinv.pos_lt] at hp
      obtain rfl : kvj = kvp := Option.some.inj hp
      by_cases hqe : q = p
      · exact absurd hqe.symm hpq
      · rw [List.getElem?_set_ne (fun h => hqe h.symm)] at hq
        exact hinv.uniq j q kvj kvq hj hq (fun h => hqj h.symm) hne hqe
    · rw [List.getElem?_set_ne (fun h => hpe h.symm)] at hp
      by_cases hqe : q = pos
      · subst hqe
        rw [List.getElem?_set_self hinv.pos_lt] at hq
        obtain rfl : kvj = kvq := Option.some.inj hq
        exact hinv.uniq p j kvp kvj hp hj hpj hpe hne
      · rw [List.getElem?_set_ne (fun h => hqe h.symm)] at hq
        exact hinv.uniq p q kvp kvq hp hq hpq hpe hqe
  · intro p kv hp hpj
    by_cases hpe : p = pos
    · subst hpe
      rw [List.getElem?_set_self hinv.pos_lt] at hp
      obtain rfl : kvj = kv := Option.some.inj hp
      exact hinv.uniqE j kvj hj hne
    · rw [List.getElem?_set_ne (fun h => hpe h.symm)] at hp
      exact hinv.uniqE p kv hp hpe

/-- Conclusions relative to a moved hole state transfer back to the state
before the move. -/
theorem SiftKeysOut.step (hkl : KeqLawful keq) {data : List (K × T)}
    {keys : List (K × Nat)} {elt : K × T} {pos j : Nat} {kvj : K × T}
    {r : List (K × T) × List (K × Nat) × Nat}
    (hinv : HoleInv keq data keys elt pos)
    (hj : data[j]? = some kvj) (hne : j ≠ pos)
    (hout : SiftKeysOut keq (data.set pos kvj) (alSet keq keys kvj.1 pos) elt j r) :
    SiftKeysOut keq data keys elt pos r := by
  have hjlt : j < data.length := (List.getElem?_eq_some.1 hj).1
  refine ⟨by rw [hout.len_data]; simp, by rw [hout.len_keys, alSet_length],
    by rw [hout.fst_keys, alSet_map_fst], hout.nodup, hout.consist,
    hout.pos_lt, hout.elt_at, ?_, ?_, ?_⟩
  · intro q kv hq
    rcases hout.prov q kv hq with ⟨q0, hq0, hq0j⟩ | he
    · by_cases hqe : q0 = pos
      · subst hqe
        rw [List.getElem?_set_self hinv.pos_lt] at hq0
        obtain rfl : kvj = kv := Option.some.inj hq0
        exact Or.inl ⟨j, hj, hne⟩
      · rw [List.getElem?_set_ne (fun h => hqe h.symm)] at hq0
        exact Or.inl ⟨q0, hq0, hqe⟩
    · exact Or.inr he
  · intro q0 kv hq0 hne0
    by_cases hq0j : q0 = j
    · subst hq0j
      rw [hj] at hq0
      obtain rfl : kvj = kv := Option.some.inj hq0
      exact hout.rev pos kvj (by rw [List.getElem?_set_self hinv.pos_lt])
        (fun h => hne h.symm)
    · exact hout.rev q0 kv
        (by rw [List.getElem?_set_ne (fun h => hne0 h.symm)]; exact hq0) hq0j
  · intro k' hnot heltk
    have hkvjk : keq kvj.1 k' = false := hnot j kvj hj hne
    have h1 := hout.ext k' ?_ heltk
    · rw [h1, alGet_alSet_other hkl _ (by
        rcases h2 : keq k' kvj.1 with _ | _
        · rfl
        · rw [hkl.symm _ _ h2] at hkvjk; cases hkvjk)]
    · intro q kv hq hqj
      by_cases hqe : q = pos
      · subst hqe
        rw [List.getElem?_set_self hinv.pos_lt] at hq
        cases hq
        exact hnot j kvj hj hne
      · rw [List.getElem?_set_ne (fun h => hqe h.symm)] at hq
        exact hnot q kv hq hqe

end HoleKeys

/-! ### Key-map conclusions of the sift loops -/

section SiftKeys

variable {K T : Type} {keq : K → K → Bool} {cmp : T → T → Ordering}

theorem siftUpLoop_out (hkl : KeqLawful keq) (start : Nat) (elt : K × T) :
    ∀ (fuel pos : Nat) (data : List (K × T)) (keys : List (K × Nat)),
      HoleInv keq data keys elt pos →
      SiftKeysOut keq data keys elt pos
        (siftUpLoop keq cmp start elt fuel pos data keys) := by
  intro fuel
  induction fuel with
  | zero =>
    intro pos data keys hinv
    exact holeDrop_out hkl hinv
  | succ fuel ih =>
    intro pos data keys hinv
    simp only [siftUpLoop]
    by_cases hs : start < pos
    · rw [if_pos hs]
      cases hp : data[(pos - 1) / 2]? with
      | none => exact holeDrop_out hkl hinv
      | some p =>
        dsimp only
        by_cases hc : cmpLe cmp elt.2 p.2 = true
        · rw [if_pos hc]
          exact holeDrop_out hkl hinv
        · rw [if_neg hc]
          have hne : (pos - 1) / 2 ≠ pos := by
            have h2 : (pos - 1) / 2 < pos :=
              Nat.lt_of_le_of_lt (Nat.div_le_self _ _) (by omega)
            omega
          exact SiftKeysOut.step hkl hinv hp hne
            (ih _ _ _ (holeMove_inv hkl hinv hp hne))
    · rw [if_neg hs]
      exact holeDrop_out hkl hinv

theorem siftDownLoop_out (hkl : KeqLawful keq) (endi : Nat) (elt : K × T) :
    ∀ (fuel pos : Nat) (data : List (K × T)) (keys : List (K × Nat)),
      HoleInv keq data keys elt pos →
      SiftKeysOut keq data keys elt pos
        (siftDownLoop keq cmp endi elt fuel pos data keys) := by
  intro fuel
  induction fuel with
  | zero =>
    intro pos data keys hinv
    exact holeDrop_out hkl hinv
  | succ fuel ih =>
    intro pos data keys hinv
    simp only [siftDownLoop]
    by_cases hin : 2 * pos + 1 ≤ endi - 2
    · rw [if_pos hin]
      cases hc : data[2 * pos + 1]? with
      | none =>
        cases hc1 : data[2 * pos + 1 + 1]? with
        | none => exact holeDrop_out hkl hinv
        | some c1 => exact holeDrop_out hkl hinv
      | some c =>
        cases hc1 : data[2 * pos + 1 + 1]? with
        | none => exact holeDrop_out hkl hinv
        | some c1 =>
          dsimp only
          by_cases hle : cmpLe cmp c.2 c1.2 = true
          · simp only [hle, if_true]
            by_cases hge : cmpGe cmp elt.2 c1.2 = true
            · rw [if_pos hge]
              exact holeDrop_out hkl hinv
            · rw [if_neg hge]
              have hne : 2 * pos + 1 + 1 ≠ pos := by omega
              exact SiftKeysOut.step hkl hinv hc1 hne
                (ih _ _ _ (holeMove_inv hkl hinv hc1 hne))
          · simp only [Bool.not_eq_true] at hle
            simp only [hle, Bool.false_eq_true, if_false]
            by_cases hge : cmpGe cmp elt.2 c.2 = true
            · rw [if_pos hge]
              exact holeDrop_out hkl hinv
            · rw [if_neg hge]
              have hne : 2 * pos + 1 ≠ pos := by omega
              exact SiftKeysOut.step hkl hinv hc hne
                (ih _ _ _ (holeMove_inv hkl hinv hc hne))
    · rw [if_neg hin]
      by_cases hlast : 2 * pos + 1 = endi - 1
      · rw [if_pos hlast]
        cases hc : data[2 * pos + 1]? with
        | none => exact holeDrop_out hkl hinv
        | some c =>
          dsimp only
          by_cases hlt : cmpLt cmp elt.2 c.2 = true
          · rw [if_pos hlt]
            have hne : 2 * pos + 1 ≠ pos := by omega
            exact SiftKeysOut.step hkl hinv hc hne
              (holeDrop_out hkl (holeMove_inv hkl hinv hc hne))
          · rw [if_neg hlt]
            exact holeDrop_out hkl hinv
      · rw [if_neg hlast]
        exact holeDrop_out hkl hinv

/-- Conclusions of the bottom walk, which leaves the hole open. -/
structure SiftHoleOut (keq : K → K → Bool) (data : List (K × T))
    (keys : List (K × Nat)) (elt : K × T) (pos : Nat)
    (r : List (K × T) × List (K × Nat) × Nat) : Prop where
  inv : HoleInv keq r.1 r.2.1 elt r.2.2
  len_data : r.1.length = data.length
  len_keys : r.2.1.length = keys.length
  fst_keys : r.2.1.map (·.1) = keys.map (·.1)
  prov : ∀ (q : Nat) (kv : K × T), r.1[q]? = some kv → q ≠ r.2.2 →
    ∃ q0 : Nat, data[q0]? = some kv ∧ q0 ≠ pos
  rev : ∀ (q0 : Nat) (kv : K × T), data[q0]? = some kv → q0 ≠ pos →
    ∃ q : Nat, r.1[q]? = some kv ∧ q ≠ r.2.2
  ext : ∀ k', (∀ (q : Nat) (kv : K × T), data[q]? = some kv → q ≠ pos →
      keq kv.1 k' = false) →
    keq elt.1 k' = false → alGet keq r.2.1 k' = alGet keq keys k'

theorem SiftHoleOut.of_inv {data : List (K × T)} {keys : List (K × Nat)}
    {elt : K × T} {pos : Nat} (hinv : HoleInv keq data keys elt pos) :
    SiftHoleOut keq data keys elt pos (data, keys, pos) :=
  ⟨hinv, rfl, rfl, rfl, fun q kv hq hne => ⟨q, hq, hne⟩,
    fun q0 kv h hne => ⟨q0, h, hne⟩, fun _ _ _ => rfl⟩

theorem SiftHoleOut.stepWalk (hkl : KeqLawful keq) {data : List (K × T)}
    {keys : List (K × Nat)} {elt : K × T} {pos j : Nat} {kvj : K × T}
    {r : List (K × T) × List (K × Nat) × Nat}
    (hinv : HoleInv keq data keys elt pos)
    (hj : data[j]? = some kvj) (hne : j ≠ pos)
    (hout : SiftHoleOut keq (data.set pos kvj) (alSet keq keys kvj.1 pos) elt j r) :
    SiftHoleOut keq data keys elt pos r := by
  refine ⟨hout.inv, by rw [hout.len_data]; simp,
    by rw [hout.len_keys, alSet_length], by rw [hout.fst_keys, alSet_map_fst],
    ?_, ?_, ?_⟩
  · intro q kv hq hqr
    obtain ⟨q0, hq0, hq0j⟩ := hout.prov q kv hq hqr
    by_cases hqe : q0 = pos
    · subst hqe
      rw [List.getElem?_set_self hinv.pos_lt] at hq0
      obtain rfl : kvj = kv := Option.some.inj hq0
      exact ⟨j, hj, hne⟩
    · rw [List.getElem?_set_ne (fun h => hqe h.symm)] at hq0
      exact ⟨q0, hq0, hqe⟩
  · intro q0 kv hq0 hne0
    by_cases hq0j : q0 = j
    · subst hq0j
      rw [hj] at hq0
      obtain rfl : kvj = kv := Option.some.inj hq0
      exact hout.rev pos kvj (by rw [List.getElem?_set_self hinv.pos_lt])
        (fun h => hne h.symm)
    · exact hout.rev q0 kv
        (by rw [List.getElem?_set_ne (fun h => hne0 h.symm)]; exact hq0) hq0j
  · intro k' hnot heltk
    have h1 := hout.ext k' ?_ heltk
    · rw [h1]
      have hkvjk : keq kvj.1 k' = false := hnot j kvj hj hne
      rw [alGet_alSet_other hkl _ (by
        rcases h2 : keq k' kvj.1 with _ | _
        · rfl
        · rw [hkl.symm _ _ h2] at hkvjk; cases hkvjk)]
    · intro q kv hq hqj
      by_cases hqe : q = pos
      · subst hqe
        rw [List.getElem?_set_self hinv.pos_lt] at hq
        obtain rfl : kvj = kv := Option.some.inj hq
        exact hnot j kvj hj hne
      · rw [List.getElem?_set_ne (fun h => hqe h.symm)] at hq
        exact hnot q kv hq hqe

theorem siftBottomLoop_out (hkl : KeqLawful keq) (endi : Nat) (elt : K × T) :
    ∀ (fuel pos : Nat) (data : List (K × T)) (keys : List (K × Nat)),
      HoleInv keq data keys elt pos →
      SiftHoleOut keq data keys elt pos
        (siftBottomLoop keq cmp endi elt fuel pos data keys) := by
  intro fuel
  induction fuel with
  | zero =>
    intro pos data keys hinv
    exact SiftHoleOut.of_inv hinv
  | succ fuel ih =>
    intro pos data keys hinv
    simp only [siftBottomLoop]
    by_cases hin : 2 * pos + 1 ≤ endi - 2
    · rw [if_pos hin]
      cases hc : data[2 * pos + 1]? with
      | none =>
        cases hc1 : data[2 * pos + 1 + 1]? with
        | none => exact SiftHoleOut.of_inv hinv
        | some c1 => exact SiftHoleOut.of_inv hinv
      | some c =>
        cases hc1 : data[2 * pos + 1 + 1]? with
        | none => exact SiftHoleOut.of_inv hinv
        | some c1 =>
          dsimp only
          by_cases hle : cmpLe cmp c.2 c1.2 = true
          · simp only [hle, if_true]
            have hne : 2 * pos + 1 + 1 ≠ pos := by omega
            exact SiftHoleOut.stepWalk hkl hinv hc1 hne
              (ih _ _ _ (holeMove_inv hkl hinv hc1 hne))
          · simp only [Bool.not_eq_true] at hle
            simp only [hle, Bool.false_eq_true, if_false]
            have hne : 2 * pos + 1 ≠ pos := by omega
            exact SiftHoleOut.stepWalk hkl hinv hc hne
              (ih _ _ _ (holeMove_inv hkl hinv hc hne))
    · rw [if_neg hin]
      by_cases hlast : 2 * pos + 1 = endi - 1
      · rw [if_pos hlast]
        cases hc : data[2 * pos + 1]? with
        | none => exact SiftHoleOut.of_inv hinv
        | some c =>
          have hne : 2 * pos + 1 ≠ pos := by omega
          exact SiftHoleOut.stepWalk hkl hinv hc hne
            (SiftHoleOut.of_inv (holeMove_inv hkl hinv hc hne))
      · rw [if_neg hlast]
        exact SiftHoleOut.of_inv hinv

end SiftKeys

/-! ### Composition of sift stages -/

section SiftComp

variable {K T : Type} {keq : K → K → Bool} {cmp : T → T → Ordering}

theorem consist_uniq (hkl : KeqLawful keq) {d : List (K × T)}
    {ks : List (K × Nat)}
    (hc : ∀ (q : Nat) (kv : K × T), d[q]? = some kv → alGet keq ks kv.1 = some q) :
    ∀ (p q : Nat) (kvp kvq : K × T), d[p]? = some kvp → d[q]? = some kvq →
      p ≠ q → keq kvp.1 kvq.1 = false := by
  intro p q kvp kvq hp hq hpq
  rcases h2 : keq kvp.1 kvq.1 with _ | _
  · rfl
  · have e1 := hc p kvp hp
    have e2 := hc q kvq hq
    rw [alGet_congr hkl ks h2, e2] at e1
    exact absurd (Option.some.inj e1).symm hpq

/-- A finished sift state can serve as a fresh hole at the element's
resting position. -/
theorem out_reHole (hkl : KeqLawful keq) {data : List (K × T)}
    {keys : List (K × Nat)} {elt : K × T} {pos : Nat}
    {r : List (K × T) × List (K × Nat) × Nat}
    (hout : SiftKeysOut keq data keys elt pos r) :
    HoleInv keq r.1 r.2.1 elt r.2.2 := by
  refine ⟨hout.pos_lt, hout.nodup, fun p kv hp _ => hout.consist p kv hp,
    ?_, ?_, ?_⟩
  · rw [hout.consist _ _ hout.elt_at]
    exact fun h => by cases h
  · intro p q kvp kvq hp hq hpq _ _
    exact consist_uniq hkl hout.consist p q kvp kvq hp hq hpq
  · intro p kv hp hpne
    exact consist_uniq hkl hout.consist p r.2.2 kv elt hp hout.elt_at hpne

theorem SiftKeysOut.comp (hkl : KeqLawful keq) {data : List (K × T)}
    {keys : List (K × Nat)} {elt : K × T} {pos : Nat}
    {r r' : List (K × T) × List (K × Nat) × Nat}
    (h1 : SiftKeysOut keq data keys elt pos r)
    (hu : ∀ (q0 : Nat) (kv : K × T), data[q0]? = some kv → q0 ≠ pos →
      keq kv.1 elt.1 = false)
    (h2 : SiftKeysOut keq r.1 r.2.1 elt r.2.2 r') :
    SiftKeysOut keq data keys elt pos r' := by
  refine ⟨h2.len_data.trans h1.len_data, h2.len_keys.trans h1.len_keys,
    h2.fst_keys.trans h1.fst_keys, h2.nodup, h2.consist, h2.pos_lt,
    h2.elt_at, ?_, ?_, ?_⟩
  · intro q kv hq
    rcases h2.prov q kv hq with ⟨q0, hq0, _⟩ | he
    · rcases h1.prov q0 kv hq0 with h | he
      · exact Or.inl h
      · exact Or.inr he
    · exact Or.inr he
  · intro q0 kv hq0 hne
    obtain ⟨q, hq⟩ := h1.rev q0 kv hq0 hne
    have hqr : q ≠ r.2.2 := by
      intro hEq
      subst hEq
      rw [h1.elt_at] at hq
      obtain rfl : elt = kv := Option.some.inj hq
      have := hu q0 elt hq0 hne
      rw [hkl.refl elt.1] at this
      cases this
    exact h2.rev q kv hq hqr
  · intro k' hnot heltk
    have hnot' : ∀ (q : Nat) (kv : K × T), r.1[q]? = some kv → q ≠ r.2.2 →
        keq kv.1 k' = false := by
      intro q kv hq _
      rcases h1.prov q kv hq with ⟨q0, hq0, hq0p⟩ | he
      · exact hnot q0 kv hq0 hq0p
      · rw [he]
        exact heltk
    rw [h2.ext k' hnot' heltk, h1.ext k' hnot heltk]

theorem SiftHoleOut.compOut (hkl : KeqLawful keq) {data : List (K × T)}
    {keys : List (K × Nat)} {elt : K × T} {pos : Nat}
    {r r' : List (K × T) × List (K × Nat) × Nat}
    (h1 : SiftHoleOut keq data keys elt pos r)
    (h2 : SiftKeysOut keq r.1 r.2.1 elt r.2.2 r') :
    SiftKeysOut keq data keys elt pos r' := by
  refine ⟨h2.len_data.trans h1.len_data, h2.len_keys.trans h1.len_keys,
    h2.fst_keys.trans h1.fst_keys, h2.nodup, h2.consist, h2.pos_lt,
    h2.elt_at, ?_, ?_, ?_⟩
  · intro q kv hq
    rcases h2.prov q kv hq with ⟨q0, hq0, hq0r⟩ | he
    · exact Or.inl (h1.prov q0 kv hq0 hq0r)
    · exact Or.inr he
  · intro q0 kv hq0 hne
    obtain ⟨q, hq, hqr⟩ := h1.rev q0 kv hq0 hne
    exact h2.rev q kv hq hqr
  · intro k' hnot heltk
    have hnot' : ∀ (q : Nat) (kv : K × T), r.1[q]? = some kv → q ≠ r.2.2 →
        keq kv.1 k' = false := by
      intro q kv hq hqr
      obtain ⟨q0, hq0, hq0p⟩ := h1.prov q kv hq hqr
      exact hnot q0 kv hq0 hq0p
    rw [h2.ext k' hnot' heltk, h1.ext k' hnot heltk]

/-- `sift_up` as called on a fresh hole. -/
theorem siftUp_out (hkl : KeqLawful keq) {start pos : Nat}
    {data : List (K × T)} {keys : List (K × Nat)} {elt : K × T}
    (helt : data[pos]? = some elt)
    (hinv : HoleInv keq data keys elt pos) :
    SiftKeysOut keq data keys elt pos (siftUp keq cmp start pos data keys) := by
  unfold siftUp
  rw [helt]
  exact siftUpLoop_out hkl start elt _ pos data keys hinv

/-- `sift_down_range` as called on a fresh hole. -/
theorem siftDownRange_out (hkl : KeqLawful keq) {pos endi : Nat}
    {data : List (K × T)} {keys : List (K × Nat)} {elt : K × T}
    (helt : data[pos]? = some elt)
    (hinv : HoleInv keq data keys elt pos) :
    SiftKeysOut keq data keys elt pos (siftDownRange keq cmp pos endi data keys) := by
  unfold siftDownRange
  rw [helt]
  exact siftDownLoop_out hkl endi elt _ pos data keys hinv

/-- `sift_down_to_bottom` as called on a fresh hole. -/
theorem siftDownToBottom_out (hkl : KeqLawful keq) {pos : Nat}
    {data : List (K × T)} {keys : List (K × Nat)} {elt : K × T}
    (helt : data[pos]? = some elt)
    (hinv : HoleInv keq data keys elt pos) :
    SiftKeysOut keq data keys elt pos (siftDownToBottom keq cmp pos data keys) := by
  unfold siftDownToBottom
  rw [helt]
  dsimp only
  have h1 := @siftBottomLoop_out K T keq cmp hkl data.length elt
    (data.length + 1) pos data keys hinv
  have h2 := holeDrop_out hkl h1.inv
  have h3 : SiftKeysOut keq
      ((siftBottomLoop keq cmp data.length elt (data.length + 1) pos data keys).1.set
        (siftBottomLoop keq cmp data.length elt (data.length + 1) pos data keys).2.2 elt)
      (alSet keq
        (siftBottomLoop keq cmp data.length elt (data.length + 1) pos data keys).2.1
        elt.1
        (siftBottomLoop keq cmp data.length elt (data.length + 1) pos data keys).2.2)
      elt
      (siftBottomLoop keq cmp data.length elt (data.length + 1) pos data keys).2.2
      (siftUp keq cmp pos
        (siftBottomLoop keq cmp data.length elt (data.length + 1) pos data keys).2.2
        ((siftBottomLoop keq cmp data.length elt (data.length + 1) pos data keys).1.set
          (siftBottomLoop keq cmp data.length elt (data.length + 1) pos data keys).2.2 elt)
        (alSet keq
          (siftBottomLoop keq cmp data.length elt (data.length + 1) pos data keys).2.1
          elt.1
          (siftBottomLoop keq cmp data.length elt (data.length + 1) pos data keys).2.2)) := by
    apply siftUp_out hkl h2.elt_at
    exact out_reHole hkl h2
  exact SiftHoleOut.compOut hkl h1 (SiftKeysOut.comp hkl h2 h1.inv.uniqE h3)

end SiftComp

/-! ### Validity through the sift primitives -/

section ValidSift

variable {K T : Type} {keq : K → K → Bool}

theorem alGet_none_forall {l : List (K × Nat)} {k : K}
    (h : alGet keq l k = none) : ∀ e ∈ l, keq e.1 k = false := by
  unfold alGet at h
  rw [Option.map_eq_none'] at h
  intro e he
  have := List.find?_eq_none.1 h e he
  simpa using this

theorem valid_uniq (hkl : KeqLawful keq) {h : Heap K T} (hV : Valid keq h) :
    ∀ (p q : Nat) (kvp kvq : K × T), h.data[p]? = some kvp →
      h.data[q]? = some kvq → p ≠ q → keq kvp.1 kvq.1 = false :=
  consist_uniq hkl fun q kv hq => hV.consist q kv hq

/-- A fresh hole on a fully valid heap satisfies the hole invariant. -/
theorem valid_holeInv (hkl : KeqLawful keq) {h : Heap K T}
    (hV : Valid keq h) {pos : Nat} {elt : K × T}
    (helt : h.data[pos]? = some elt) :
    HoleInv keq h.data h.keys elt pos := by
  refine ⟨(List.getElem?_eq_some.1 helt).1, hV.nodup,
    fun p kv hp _ => hV.consist p kv hp, ?_, ?_, ?_⟩
  · rw [hV.consist pos elt helt]
    exact fun hcon => by cases hcon
  · intro p q kvp kvq hp hq hpq _ _
    exact valid_uniq hkl hV p q kvp kvq hp hq hpq
  · intro p kv hp hpne
    exact valid_uniq hkl hV p pos kv elt hp helt hpne

theorem backward_of_out (hkl : KeqLawful keq) {d : List (K × T)}
    {ks : List (K × Nat)}
    (hnd : ks.Pairwise fun a b => keq a.1 b.1 = false)
    (hconsist : ∀ (q : Nat) (kv : K × T), d[q]? = some kv →
      alGet keq ks kv.1 = some q)
    (hsrc : ∀ e ∈ ks, ∃ (q : Nat) (kv : K × T), d[q]? = some kv ∧
      keq kv.1 e.1 = true) :
    ∀ e ∈ ks, ∃ kv, d[e.2]? = some kv ∧ keq kv.1 e.1 = true := by
  intro e he
  obtain ⟨q, kv, hq, hk⟩ := hsrc e he
  have h1 := hconsist q kv hq
  rw [alGet_congr hkl _ hk] at h1
  have h2 := alGet_mem_eq hkl hnd he h1
  exact ⟨kv, by rw [h2]; exact hq, hk⟩

/-- A sift on a fully valid heap state yields a fully valid heap state. -/
theorem out_valid (hkl : KeqLawful keq) {h : Heap K T} {elt : K × T}
    {pos : Nat} {r : List (K × T) × List (K × Nat) × Nat}
    (hV : Valid keq h) (helt : h.data[pos]? = some elt)
    (hout : SiftKeysOut keq h.data h.keys elt pos r) (c : T → T → Ordering) :
    Valid keq { data := r.1, keys := r.2.1, cmp := c } := by
  refine ⟨hout.nodup, ?_, hout.consist, ?_⟩
  · rw [hout.len_keys, hout.len_data, hV.size]
  · apply backward_of_out hkl hout.nodup hout.consist
    intro e he
    have hfst : e.1 ∈ h.keys.map (·.1) := by
      rw [← hout.fst_keys]
      exact List.mem_map_of_mem _ he
    obtain ⟨e0, he0, he01⟩ := List.mem_map.1 hfst
    obtain ⟨kv0, hkv0, hk0⟩ := hV.backward e0 he0
    by_cases hpe : e0.2 = pos
    · rw [hpe, helt] at hkv0
      obtain rfl : elt = kv0 := Option.some.inj hkv0
      exact ⟨r.2.2, elt, hout.elt_at, by rw [he01] at hk0; exact hk0⟩
    · obtain ⟨q, hq⟩ := hout.rev e0.2 kv0 hkv0 hpe
      exact ⟨q, kv0, hq, by rw [he01] at hk0; exact hk0⟩

/-- Changing a stored value in place (keeping the key) preserves validity. -/
theorem valid_set_value (hkl : KeqLawful keq) {h : Heap K T}
    (hV : Valid keq h) {pos : Nat} {kv : K × T} (hkv : h.data[pos]? = some kv)
    (w : T) :
    Valid keq { h with data := h.data.set pos (kv.1, w) } := by
  have hlt : pos < h.data.length := (List.getElem?_eq_some.1 hkv).1
  refine ⟨hV.nodup, by simpa using hV.size, ?_, ?_⟩
  · intro p kv' hp
    by_cases hpe : p = pos
    · subst hpe
      rw [List.getElem?_set_self hlt] at hp
      obtain rfl : (kv.1, w) = kv' := Option.some.inj hp
      exact hV.consist p kv hkv
    · rw [List.getElem?_set_ne (fun hcon => hpe hcon.symm)] at hp
      exact hV.consist p kv' hp
  · intro e he
    obtain ⟨kv0, hkv0, hk0⟩ := hV.backward e he
    by_cases hpe : e.2 = pos
    · rw [hpe] at hkv0 ⊢
      obtain rfl : kv0 = kv := Option.some.inj (hkv0.symm.trans hkv)
      exact ⟨(kv0.1, w), List.getElem?_set_self hlt, hk0⟩
    · rw [List.getElem?_set_ne (fun hcon => hpe hcon.symm)]
      exact ⟨kv0, hkv0, hk0⟩

/-- The two-phase repair of `update` (`updateAt`) behaves as one sift of
the element at `pos`. -/
theorem updateAt_out (hkl : KeqLawful keq) (h : Heap K T) {pos : Nat}
    {elt : K × T} (helt : h.data[pos]? = some elt)
    (hinv : HoleInv keq h.data h.keys elt pos) :
    ∃ p' : Nat, SiftKeysOut keq h.data h.keys elt pos
      ((h.updateAt keq pos).data, (h.updateAt keq pos).keys, p') := by
  unfold Heap.updateAt
  have h1 := @siftUp_out K T keq h.cmp hkl 0 pos h.data h.keys elt helt hinv
  by_cases hmoved : (siftUp keq h.cmp 0 pos h.data h.keys).2.2 ≠ pos
  · rw [if_pos hmoved]
    exact ⟨(siftUp keq h.cmp 0 pos h.data h.keys).2.2, h1⟩
  · rw [if_neg hmoved]
    push_neg at hmoved
    have h2 := @siftDownRange_out K T keq h.cmp hkl
      (siftUp keq h.cmp 0 pos h.data h.keys).2.2
      (siftUp keq h.cmp 0 pos h.data h.keys).1.length
      (siftUp keq h.cmp 0 pos h.data h.keys).1
      (siftUp keq h.cmp 0 pos h.data h.keys).2.1
      elt h1.elt_at (out_reHole hkl h1)
    have h3 := SiftKeysOut.comp hkl h1 hinv.uniqE h2
    rw [hmoved] at h3
    exact ⟨(siftDown keq h.cmp pos (siftUp keq h.cmp 0 pos h.data h.keys).1
      (siftUp keq h.cmp 0 pos h.data h.keys).2.1).2.2, h3⟩

end ValidSift

/-! ### Validity of the public operations -/

section ValidOps

variable {K T : Type} {keq : K → K → Bool}

theorem alGet_pos_data (hkl : KeqLawful keq) {h : Heap K T} {k : K} {pos : Nat}
    (hV : Valid keq h) (hget : alGet keq h.keys k = some pos) :
    ∃ kv, h.data[pos]? = some kv ∧ keq kv.1 k = true := by
  obtain ⟨e, he, hek, hev⟩ := alGet_some_mem hget
  obtain ⟨kv, hkv, hk1⟩ := hV.backward e he
  rw [hev] at hkv
  exact ⟨kv, hkv, hkl.trans _ _ _ hk1 hek⟩

theorem out_valid_heap (hkl : KeqLawful keq) {h : Heap K T} {elt : K × T}
    {pos : Nat} {r : List (K × T) × List (K × Nat) × Nat}
    (hV : Valid keq h) (helt : h.data[pos]? = some elt)
    (hout : SiftKeysOut keq h.data h.keys elt pos r) {H' : Heap K T}
    (hd : H'.data = r.1) (hk : H'.keys = r.2.1) : Valid keq H' := by
  have hVr := out_valid hkl hV helt hout H'.cmp
  refine ⟨?_, ?_, ?_, ?_⟩
  · rw [hk]; exact hVr.nodup
  · rw [hk, hd]; exact hVr.size
  · rw [hk]
    intro p kv hp
    rw [hd] at hp
    exact hVr.consist p kv hp
  · rw [hk, hd]
    exact hVr.backward

theorem updateAt_valid (hkl : KeqLawful keq) {h : Heap K T} {pos : Nat}
    {elt : K × T} (hV : Valid keq h) (helt : h.data[pos]? = some elt) :
    Valid keq (h.updateAt keq pos) := by
  obtain ⟨p', hout⟩ := updateAt_out hkl h helt (valid_holeInv hkl hV helt)
  exact out_valid_heap hkl hV helt hout rfl rfl

theorem update_valid (hkl : KeqLawful keq) {h h' : Heap K T} {k : K}
    (hV : Valid keq h) (hup : h.update keq k = some h') : Valid keq h' := by
  unfold Heap.update at hup
  cases hget : alGet keq h.keys k with
  | none => rw [hget] at hup; cases hup
  | some pos =>
    rw [hget] at hup
    obtain ⟨kv, hkv, _⟩ := alGet_pos_data hkl hV hget
    obtain rfl : h.updateAt keq pos = h' := Option.some.inj hup
    exact updateAt_valid hkl hV hkv

theorem siftDown_valid (hkl : KeqLawful keq) {data : List (K × T)}
    {keys : List (K × Nat)} {c : T → T → Ordering} {cmp : T → T → Ordering}
    (pos : Nat) (hV : Valid keq { data := data, keys := keys, cmp := c }) :
    Valid keq
      ⟨(siftDown keq cmp pos data keys).1, (siftDown keq cmp pos data keys).2.1, c⟩ := by
  cases helt : data[pos]? with
  | none =>
    unfold siftDown siftDownRange
    rw [helt]
    exact hV
  | some elt =>
    have hinv := valid_holeInv hkl hV helt
    have hout : SiftKeysOut keq data keys elt pos
        (siftDownRange keq cmp pos data.length data keys) := by
      unfold siftDownRange
      rw [helt]
      exact @siftDownLoop_out K T keq cmp hkl data.length elt
        (data.length + 1) pos data keys hinv
    exact out_valid_heap hkl hV helt hout rfl rfl

theorem insert_pair_valid (hkl : KeqLawful keq) {h : Heap K T}
    (hV : Valid keq h) {k : K} (v : T)
    (hget : alGet keq h.keys k = none) :
    Valid keq
      ⟨h.data ++ [(k, v)], alInsert keq h.keys k h.data.length, h.cmp⟩ := by
  have hnone : ∀ e ∈ h.keys, keq e.1 k = false := alGet_none_forall hget
  have hcontains : alContains keq h.keys k = false := (alGet_none_iff keq _ _).1 hget
  have hother : ∀ (p : Nat) (kv : K × T), h.data[p]? = some kv →
      keq k kv.1 = false := by
    intro p kv hp
    rcases h2 : keq k kv.1 with _ | _
    · rfl
    · have := alGet_congr hkl h.keys h2
      rw [hget, hV.consist p kv hp] at this
      cases this
  rw [alInsert_absent _ hcontains]
  refine ⟨?_, ?_, ?_, ?_⟩
  · rw [List.pairwise_append]
    refine ⟨hV.nodup, List.pairwise_singleton _ _, ?_⟩
    intro a ha b hb
    rw [List.mem_singleton] at hb
    subst hb
    exact hnone a ha
  · simp [hV.size]
  · intro p kv hp
    rw [List.getElem?_append] at hp
    by_cases hlt : p < h.data.length
    · rw [if_pos hlt] at hp
      rw [alGet_append_other _ (hother p kv hp)]
      exact hV.consist p kv hp
    · rw [if_neg hlt] at hp
      have hp0 : p - h.data.length = 0 := by
        rcases Nat.lt_or_ge (p - h.data.length) 1 with hcase | hcase
        · omega
        · rw [List.getElem?_eq_none (by simpa using hcase)] at hp
          cases hp
      rw [hp0] at hp
      obtain rfl : (k, v) = kv := Option.some.inj (by simpa using hp)
      have hpe : p = h.data.length := by omega
      rw [hpe]
      exact alGet_append_self hkl _ hcontains
  · intro e he
    rcases List.mem_append.1 he with he | he
    · obtain ⟨kv0, hkv0, hk0⟩ := hV.backward e he
      have hlt : e.2 < h.data.length := (List.getElem?_eq_some.1 hkv0).1
      refine ⟨kv0, ?_, hk0⟩
      rw [List.getElem?_append, if_pos hlt]
      exact hkv0
    · rw [List.mem_singleton] at he
      subst he
      exact ⟨(k, v), by simpa using List.getElem?_concat_length h.data (k, v),
        hkl.refl k⟩

theorem push_valid (hkl : KeqLawful keq) {h : Heap K T} (hV : Valid keq h)
    (k : K) (v : T) : Valid keq (h.push keq k v).1 := by
  unfold Heap.push
  cases hget : alGet keq h.keys k with
  | some pos =>
    dsimp only
    obtain ⟨kv, hkv, hkvk⟩ := alGet_pos_data hkl hV hget
    rw [hkv]
    dsimp only
    have hlt : pos < h.data.length := (List.getElem?_eq_some.1 hkv).1
    have hV' : Valid keq { h with data := h.data.set pos (kv.1, v) } :=
      valid_set_value hkl hV hkv v
    have hup : Heap.update keq { h with data := h.data.set pos (kv.1, v) } k
        = some (Heap.updateAt keq { h with data := h.data.set pos (kv.1, v) } pos) := by
      unfold Heap.update
      dsimp only
      rw [hget]
      rfl
    rw [hup]
    exact updateAt_valid hkl hV' (List.getElem?_set_self hlt)
  | none =>
    dsimp only
    have hmid := insert_pair_valid hkl hV v hget
    have helt : (h.data ++ [(k, v)])[h.data.length]? = some (k, v) :=
      List.getElem?_concat_length h.data (k, v)
    have hout := @siftUp_out K T keq h.cmp hkl 0 h.data.length
      (h.data ++ [(k, v)]) (alInsert keq h.keys k h.data.length) (k, v)
      helt (valid_holeInv hkl hmid helt)
    exact out_valid_heap hkl hmid helt hout rfl rfl

theorem peekMutSet_valid (hkl : KeqLawful keq) {h : Heap K T}
    (hV : Valid keq h) (w : T) : Valid keq (h.peekMutSet keq w) := by
  unfold Heap.peekMutSet
  cases hkv : h.data[0]? with
  | none => exact hV
  | some kv =>
    dsimp only
    have hV2 : Valid keq { h with data := h.data.set 0 (kv.1, w) } :=
      valid_set_value hkl hV hkv w
    exact @siftDown_valid K T keq hkl (h.data.set 0 (kv.1, w)) h.keys h.cmp h.cmp
      0 hV2

theorem getMutSet_valid (hkl : KeqLawful keq) {h : Heap K T}
    (hV : Valid keq h) (k : K) (w : T) : Valid keq (h.getMutSet keq k w) := by
  unfold Heap.getMutSet
  cases hget : alGet keq h.keys k with
  | none => exact hV
  | some pos =>
    dsimp only
    cases hkv : h.data[pos]? with
    | none => exact hV
    | some kv =>
      dsimp only
      have hlt : pos < h.data.length := (List.getElem?_eq_some.1 hkv).1
      have hV' : Valid keq { h with data := h.data.set pos (kv.1, w) } :=
        valid_set_value hkl hV hkv w
      have hup : Heap.update keq { h with data := h.data.set pos (kv.1, w) } k
          = some (Heap.updateAt keq { h with data := h.data.set pos (kv.1, w) } pos) := by
        unfold Heap.update
        dsimp only
        rw [hget]
        rfl
      rw [hup]
      exact updateAt_valid hkl hV' (List.getElem?_set_self hlt)

end ValidOps

/-! ### Validity of `remove` and `pop` -/

section ValidRemove

variable {K T : Type} {keq : K → K → Bool}

theorem remove_valid (hkl : KeqLawful keq) {h : Heap K T} (hV : Valid keq h)
    (k : K) : Valid keq (h.remove keq k).1 := by
  unfold Heap.remove
  cases hget : alGet keq h.keys k with
  | none => exact hV
  | some pos =>
    dsimp only
    cases hl : h.data.getLast? with
    | none => exact hV
    | some last =>
      dsimp only
      have hlast : h.data[h.data.length - 1]? = some last := by
        rw [← List.getLast?_eq_getElem?]
        exact hl
      obtain ⟨kvp, hkvp, hkvpk⟩ := alGet_pos_data hkl hV hget
      have hposn : pos < h.data.length := (List.getElem?_eq_some.1 hkvp).1
      by_cases hcond : h.data.dropLast.length ≠ 0 ∧ pos < h.data.dropLast.length
      · rw [if_pos hcond]
        obtain ⟨hne0, hposlt⟩ := hcond
        have hrest : h.data.dropLast[pos]? = h.data[pos]? := by
          rw [List.getElem?_dropLast, if_pos (by simpa using hposlt)]
        cases hat : h.data.dropLast[pos]? with
        | none => exact hV
        | some atPos =>
          dsimp only
          have hatd : h.data[pos]? = some atPos := by rw [← hrest]; exact hat
          have hposn1 : pos ≠ h.data.length - 1 := by
            have := List.length_dropLast h.data
            omega
          have hlt0 : pos < h.data.dropLast.length := hposlt
          have hinv : HoleInv keq (h.data.dropLast.set pos last) h.keys last pos := by
            refine ⟨by simpa using hlt0, hV.nodup, ?_, ?_, ?_, ?_⟩
            · intro p kv hp hpe
              rw [List.getElem?_set_ne (fun hcon => hpe hcon.symm),
                List.getElem?_dropLast] at hp
              by_cases hplt : p < h.data.length - 1
              · rw [if_pos hplt] at hp
                exact hV.consist p kv hp
              · rw [if_neg hplt] at hp
                cases hp
            · rw [hV.consist _ last hlast]
              exact fun hcon => by cases hcon
            · intro p q kvq kvq2 hp hq hpq hpe hqe
              rw [List.getElem?_set_ne (fun hcon => hpe hcon.symm),
                List.getElem?_dropLast] at hp
              rw [List.getElem?_set_ne (fun hcon => hqe hcon.symm),
                List.getElem?_dropLast] at hq
              by_cases hplt : p < h.data.length - 1
              · by_cases hqlt : q < h.data.length - 1
                · rw [if_pos hplt] at hp
                  rw [if_pos hqlt] at hq
                  exact valid_uniq hkl hV p q kvq kvq2 hp hq hpq
                · rw [if_neg hqlt] at hq
                  cases hq
              · rw [if_neg hplt] at hp
                cases hp
            · intro p kv hp hpe
              rw [List.getElem?_set_ne (fun hcon => hpe hcon.symm),
                List.getElem?_dropLast] at hp
              by_cases hplt : p < h.data.length - 1
              · rw [if_pos hplt] at hp
                exact valid_uniq hkl hV p (h.data.length - 1) kv last hp hlast
                  (by omega)
              · rw [if_neg hplt] at hp
                cases hp
          have helt0 : (h.data.dropLast.set pos last)[pos]? = some last :=
            List.getElem?_set_self hlt0
          have hout := @siftDownToBottom_out K T keq h.cmp hkl pos
            (h.data.dropLast.set pos last) h.keys last helt0 hinv
          have hAtNotIn : ∀ (q : Nat) (kv : K × T),
              (h.data.dropLast.set pos last)[q]? = some kv → q ≠ pos →
              keq kv.1 atPos.1 = false := by
            intro q kv hq hqe
            rw [List.getElem?_set_ne (fun hcon => hqe hcon.symm),
              List.getElem?_dropLast] at hq
            by_cases hqlt : q < h.data.length - 1
            · rw [if_pos hqlt] at hq
              exact valid_uniq hkl hV q pos kv atPos hq hatd hqe
            · rw [if_neg hqlt] at hq
              cases hq
          have hAtNotElt : keq last.1 atPos.1 = false :=
            valid_uniq hkl hV (h.data.length - 1) pos last atPos hlast hatd
              (fun hcon => hposn1 hcon.symm)
          have hext := hout.ext atPos.1 hAtNotIn hAtNotElt
          rw [hV.consist pos atPos hatd] at hext
          have hconsist' : ∀ (q : Nat) (kv : K × T),
              (siftDownToBottom keq h.cmp pos (h.data.dropLast.set pos last)
                h.keys).1[q]? = some kv →
              alGet keq (alErase keq (siftDownToBottom keq h.cmp pos
                (h.data.dropLast.set pos last) h.keys).2.1 atPos.1) kv.1
                = some q := by
            intro q kv hq
            have h1 := hout.consist q kv hq
            have hne : keq kv.1 atPos.1 = false := by
              rcases hout.prov q kv hq with ⟨q0, hq0, hq0e⟩ | he
              · exact hAtNotIn q0 kv hq0 hq0e
              · rw [he]
                exact hAtNotElt
            rw [alErase_other hkl hne]
            exact h1
          refine ⟨alErase_nodup _ hout.nodup, ?_, hconsist', ?_⟩
          · rw [alErase_length hext, hout.len_keys, hout.len_data, hV.size]
            simp
          · apply backward_of_out hkl (alErase_nodup _ hout.nodup) hconsist'
            intro e he
            have heR : e ∈ (siftDownToBottom keq h.cmp pos
                (h.data.dropLast.set pos last) h.keys).2.1 :=
              alErase_subset _ e he
            have he_ne : keq e.1 atPos.1 = false :=
              alErase_not_mem hkl hout.nodup he
            have hfst : e.1 ∈ h.keys.map (·.1) := by
              rw [← hout.fst_keys]
              exact List.mem_map_of_mem _ heR
            obtain ⟨e0, he0, he01⟩ := List.mem_map.1 hfst
            obtain ⟨kv0, hkv0, hk0⟩ := hV.backward e0 he0
            have hk0' : keq kv0.1 e.1 = true := by rw [← he01]; exact hk0
            by_cases hpe : e0.2 = pos
            · rw [hpe, hatd] at hkv0
              obtain rfl : atPos = kv0 := Option.some.inj hkv0
              have := hkl.symm _ _ hk0'
              rw [he_ne] at this
              cases this
            · by_cases hple : e0.2 = h.data.length - 1
              · rw [hple, hlast] at hkv0
                obtain rfl : last = kv0 := Option.some.inj hkv0
                exact ⟨_, last, hout.elt_at, hk0'⟩
              · have hlt : e0.2 < h.data.length :=
                  (List.getElem?_eq_some.1 hkv0).1
                have hd0 : (h.data.dropLast.set pos last)[e0.2]? = some kv0 := by
                  rw [List.getElem?_set_ne (fun hcon => hpe hcon.symm),
                    List.getElem?_dropLast, if_pos (by omega)]
                  exact hkv0
                obtain ⟨q, hq⟩ := hout.rev e0.2 kv0 hd0 hpe
                exact ⟨q, kv0, hq, hk0'⟩
      · rw [if_neg hcond]
        have hpose : pos = h.data.length - 1 := by
          have hlen1 : h.data.dropLast.length = h.data.length - 1 :=
            List.length_dropLast h.data
          rcases Decidable.not_and_iff_or_not.1 hcond with hc | hc
          · push_neg at hc
            omega
          · push_neg at hc
            omega
        have hkvlast : kvp = last := by
          rw [hpose, hlast] at hkvp
          exact (Option.some.inj hkvp).symm
        refine ⟨alErase_nodup _ hV.nodup, ?_, ?_, ?_⟩
        · have : alGet keq h.keys last.1 = some (h.data.length - 1) :=
            hV.consist _ last hlast
          rw [alErase_length this, hV.size]
          simp
        · intro p kv hp
          rw [List.getElem?_dropLast] at hp
          by_cases hplt : p < h.data.length - 1
          · rw [if_pos hplt] at hp
            have hne : keq kv.1 last.1 = false :=
              valid_uniq hkl hV p (h.data.length - 1) kv last hp hlast (by omega)
            rw [alErase_other hkl hne]
            exact hV.consist p kv hp
          · rw [if_neg hplt] at hp
            cases hp
        · intro e he
          have he_ne : keq e.1 last.1 = false :=
            alErase_not_mem hkl hV.nodup he
          obtain ⟨kv0, hkv0, hk0⟩ := hV.backward e (alErase_subset _ e he)
          have hlt : e.2 < h.data.length := (List.getElem?_eq_some.1 hkv0).1
          by_cases hple : e.2 = h.data.length - 1
          · rw [hple, hlast] at hkv0
            obtain rfl : last = kv0 := Option.some.inj hkv0
            have := hkl.symm _ _ hk0
            rw [he_ne] at this
            cases this
          · refine ⟨kv0, ?_, hk0⟩
            rw [List.getElem?_dropLast, if_pos (by omega)]
            exact hkv0

theorem popWithKey_valid (hkl : KeqLawful keq) {h : Heap K T}
    (hV : Valid keq h) : Valid keq (h.popWithKey keq).1 := by
  cases hl : h.data.getLast? with
  | none =>
    unfold Heap.popWithKey
    rw [hl]
    exact hV
  | some last =>
    have hne : h.data ≠ [] := by
      intro hnil
      rw [hnil] at hl
      cases hl
    have hlen : 0 < h.data.length := List.length_pos.2 hne
    have h0 : h.data[0]? = some h.data[0] := List.getElem?_eq_getElem hlen
    rw [← remove_root_eq_pop keq h h.data[0].1 h.data[0] hkl hV h0 (hkl.refl _)]
    exact remove_valid hkl hV _

end ValidRemove

/-! ### Validity of bulk construction and the reachable-state invariant -/

section ValidBulk

variable {K T : Type} {keq : K → K → Bool}

theorem valid_empty (cmp : T → T → Ordering) :
    Valid keq ({ data := [], keys := [], cmp := cmp } : Heap K T) := by
  refine ⟨List.Pairwise.nil, rfl, ?_, ?_⟩
  · intro p kv hp
    cases hp
  · intro e he
    cases he

theorem rebuildLoop_valid (hkl : KeqLawful keq) {c cmp : T → T → Ordering} :
    ∀ (n : Nat) (data : List (K × T)) (keys : List (K × Nat)),
      Valid keq { data := data, keys := keys, cmp := c } →
      Valid keq
        ⟨(rebuildLoop keq cmp n data keys).1, (rebuildLoop keq cmp n data keys).2, c⟩ := by
  intro n
  induction n with
  | zero =>
    intro data keys hV
    exact hV
  | succ n ih =>
    intro data keys hV
    simp only [rebuildLoop]
    exact ih _ _ (@siftDown_valid K T keq hkl data keys c cmp n hV)

theorem rebuild_valid (hkl : KeqLawful keq) {h : Heap K T}
    (hV : Valid keq h) : Valid keq (h.rebuild keq) := by
  unfold Heap.rebuild
  exact @rebuildLoop_valid K T keq hkl h.cmp h.cmp (h.data.length / 2)
    h.data h.keys hV

theorem foldPush_valid (hkl : KeqLawful keq) :
    ∀ (l : List (K × T)) (acc : Heap K T), Valid keq acc →
      l.Pairwise (fun a b => keq a.1 b.1 = false) →
      (∀ kv ∈ l, alGet keq acc.keys kv.1 = none) →
      Valid keq (l.foldl
        (fun (h : Heap K T) kv =>
          ⟨h.data ++ [kv], alInsert keq h.keys kv.1 h.data.length, h.cmp⟩) acc) := by
  intro l
  induction l with
  | nil =>
    intro acc hV _ _
    exact hV
  | cons kv rest ih =>
    intro acc hV hdist habs
    rw [List.foldl_cons]
    have hnone : alGet keq acc.keys kv.1 = none := habs kv (List.mem_cons_self _ _)
    have hV' := insert_pair_valid hkl hV kv.2 hnone
    apply ih _ hV' (List.pairwise_cons.1 hdist).2
    intro kv' hkv'
    have hcont : alContains keq acc.keys kv.1 = false := (alGet_none_iff keq _ _).1 hnone
    have hne : keq kv.1 kv'.1 = false := (List.pairwise_cons.1 hdist).1 kv' hkv'
    show alGet keq (alInsert keq acc.keys kv.1 acc.data.length) kv'.1 = none
    rw [alInsert_absent _ hcont, alGet_append_other _ hne]
    exact habs kv' (List.mem_cons_of_mem _ hkv')

theorem fromIter_valid (hkl : KeqLawful keq) (cmp : T → T → Ordering)
    (l : List (K × T)) (hdist : l.Pairwise fun a b => keq a.1 b.1 = false) :
    Valid keq (Heap.fromIter keq cmp l) := by
  unfold Heap.fromIter
  apply rebuild_valid hkl
  apply foldPush_valid hkl l _ (valid_empty cmp) hdist
  intro kv _
  rfl

/-- The heaps reachable through the index-preserving public operations:
bulk construction from a duplicate-free list, `push`, `pop_with_key`,
`remove`, `update`, and arbitrary in-place value mutation through
`get_mut` or `peek_mut` followed by their deferred repair. -/
inductive ReachableIdx (keq : K → K → Bool) : Heap K T → Prop
  | base (cmp : T → T → Ordering) (l : List (K × T))
      (hdist : l.Pairwise fun a b => keq a.1 b.1 = false) :
      ReachableIdx keq (Heap.fromIter keq cmp l)
  | push (h : Heap K T) (k : K) (v : T) : ReachableIdx keq h →
      ReachableIdx keq (h.push keq k v).1
  | pop (h : Heap K T) : ReachableIdx keq h →
      ReachableIdx keq (h.popWithKey keq).1
  | remove (h : Heap K T) (k : K) : ReachableIdx keq h →
      ReachableIdx keq (h.remove keq k).1
  | update (h h' : Heap K T) (k : K) : ReachableIdx keq h →
      h.update keq k = some h' → ReachableIdx keq h'
  | getMut (h : Heap K T) (k : K) (w : T) : ReachableIdx keq h →
      ReachableIdx keq (h.getMutSet keq k w)
  | peekMut (h : Heap K T) (w : T) : ReachableIdx keq h →
      ReachableIdx keq (h.peekMutSet keq w)

theorem reachableIdx_valid {K T : Type} {keq : K → K → Bool}
    (hkl : KeqLawful keq) {h : Heap K T} (hr : ReachableIdx keq h) :
    Valid keq h := by
  induction hr with
  | base cmp l hdist => exact fromIter_valid hkl cmp l hdist
  | push h k v _ ih => exact push_valid hkl ih k v
  | pop h _ ih => exact popWithKey_valid hkl ih
  | remove h k _ ih => exact remove_valid hkl ih k
  | update h h' k _ hup ih => exact update_valid hkl ih hup
  | getMut h k w _ ih => exact getMutSet_valid hkl ih k w
  | peekMut h w _ ih => exact peekMutSet_valid hkl ih w

end ValidBulk

/-! ### Claim C2, amended part -/

/-- C2 as amended: for every heap reachable through push, pop, remove,
update, deferred `get_mut`/`peek_mut` repair, and bulk construction from
an iterator whose keys are pairwise distinct (duplicate-key bulk inputs
are excluded — see the counterexample — and so are `clear`/`drain` and
`append`, which the code leaves with a stale index, see C4 and C5),
index consistency holds: every stored pair's key maps to its position,
the map and storage have equal cardinality, and no key occurs at two
distinct storage positions. -/
theorem c2_amended_index_consistency {K T : Type} (keq : K → K → Bool)
    (hkl : KeqLawful keq) (h : Heap K T) (hr : ReachableIdx keq h) :
    (∀ (p : Nat) (kv : K × T), h.data[p]? = some kv →
      alGet keq h.keys kv.1 = some p) ∧
    h.keys.length = h.data.length ∧
    (∀ (p q : Nat) (kvp kvq : K × T), h.data[p]? = some kvp →
      h.data[q]? = some kvq → p ≠ q → keq kvp.1 kvq.1 = false) := by
  have hV : Valid keq h := reachableIdx_valid hkl hr
  exact ⟨hV.consist, hV.size, valid_uniq hkl hV⟩

/-- Witness for the amended C2 at a concrete reachable heap. -/
theorem c2_amended_witness :
    KeqLawful natKeq ∧
    ReachableIdx natKeq
      ((Heap.fromIter natKeq natCmp [(0,3),(1,2)]).push natKeq 5 7).1 ∧
    ((Heap.fromIter natKeq natCmp [(0,3),(1,2)]).push natKeq 5 7).1.keys.length
      = ((Heap.fromIter natKeq natCmp [(0,3),(1,2)]).push natKeq 5 7).1.data.length := by
  have hdist : ([(0,3),(1,2)] : List (Nat × Nat)).Pairwise
      (fun a b => natKeq a.1 b.1 = false) := by
    refine List.Pairwise.cons ?_ (List.pairwise_singleton _ _)
    intro b hb
    rw [List.mem_singleton] at hb
    subst hb
    rfl
  have hr : ReachableIdx natKeq
      ((Heap.fromIter natKeq natCmp [(0,3),(1,2)]).push natKeq 5 7).1 :=
    ReachableIdx.push _ 5 7 (ReachableIdx.base natCmp [(0,3),(1,2)] hdist)
  exact ⟨natKeq_lawful, hr,
    (c2_amended_index_consistency natKeq natKeq_lawful _ hr).2.1⟩

/-- Witness for C10: on the 7-element example heap, removing by the root
key 0 equals popping. -/
theorem c10_witness :
    KeqLawful natKeq ∧ Valid natKeq exampleRemoveHeap ∧
    exampleRemoveHeap.data[0]? = some (0, 20) ∧ natKeq 0 0 = true ∧
    exampleRemoveHeap.remove natKeq 0 = exampleRemoveHeap.popWithKey natKeq :=
  ⟨natKeq_lawful, (validB_iff natKeq exampleRemoveHeap).1 (by decide), by decide,
    by decide,
    c10_remove_root_eq_pop natKeq exampleRemoveHeap 0 (0, 20) natKeq_lawful
      ((validB_iff natKeq exampleRemoveHeap).1 (by decide)) (by decide) (by decide)⟩

/-! ### Heap-order preservation by the sift primitives -/

section HeapOrder

variable {K T : Type} {keq : K → K → Bool} {cmp : T → T → Ordering}

/-- Hole-state edge invariant: every parent edge of the stale storage that
does not touch the hole position satisfies the heap order. -/
def hpE (cmp : T → T → Ordering) (data : List (K × T)) (pos : Nat) : Prop :=
  ∀ (i : Nat) (v w : K × T), 0 < i → i ≠ pos → (i - 1) / 2 ≠ pos →
    data[i]? = some v → data[(i - 1) / 2]? = some w → cmp v.2 w.2 ≠ .gt

/-- Hole-state invariant: every child of the hole is at most the hole's
parent (skipping a generation across the hole). -/
def hpG (cmp : T → T → Ordering) (data : List (K × T)) (pos : Nat) : Prop :=
  ∀ (c : Nat) (v w : K × T), 0 < pos → (c - 1) / 2 = pos →
    data[c]? = some v → data[(pos - 1) / 2]? = some w → cmp v.2 w.2 ≠ .gt

/-- Every child of the hole is at most the held element. -/
def hpD (cmp : T → T → Ordering) (data : List (K × T)) (elt : K × T)
    (pos : Nat) : Prop :=
  ∀ (c : Nat) (v : K × T), 0 < c → (c - 1) / 2 = pos →
    data[c]? = some v → cmp v.2 elt.2 ≠ .gt

/-- The held element is at most the hole's parent. -/
def hpUp (cmp : T → T → Ordering) (data : List (K × T)) (elt : K × T)
    (pos : Nat) : Prop :=
  0 < pos → ∀ w : K × T, data[(pos - 1) / 2]? = some w → cmp elt.2 w.2 ≠ .gt

theorem cmpLe_true_iff (a b : T) : cmpLe cmp a b = true ↔ cmp a b ≠ .gt := by
  unfold cmpLe; cases cmp a b <;> decide

theorem cmpLe_false_iff (a b : T) : cmpLe cmp a b = false ↔ cmp a b = .gt := by
  unfold cmpLe; cases cmp a b <;> decide

theorem cmpGe_true_iff (a b : T) : cmpGe cmp a b = true ↔ cmp a b ≠ .lt := by
  unfold cmpGe; cases cmp a b <;> decide

theorem cmpGe_false_iff (a b : T) : cmpGe cmp a b = false ↔ cmp a b = .lt := by
  unfold cmpGe; cases cmp a b <;> decide

theorem cmpLt_true_iff (a b : T) : cmpLt cmp a b = true ↔ cmp a b = .lt := by
  unfold cmpLt; cases cmp a b <;> decide

theorem cmpLt_false_iff (a b : T) : cmpLt cmp a b = false ↔ cmp a b ≠ .lt := by
  unfold cmpLt; cases cmp a b <;> decide

/-- `a > b` flips to `b ≤ a` (strictly, `b < a`). -/
theorem le_of_flip_gt (hL : LawfulCmp cmp) {a b : T} (h : cmp a b = .gt) :
    cmp b a ≠ .gt := by
  have hlt := (hL.flip a b).1 h
  rw [hlt]; decide

/-- `¬(a < b)` flips to `b ≤ a`. -/
theorem le_of_flip_not_lt (hL : LawfulCmp cmp) {a b : T} (h : cmp a b ≠ .lt) :
    cmp b a ≠ .gt := fun hg => h ((hL.flip b a).1 hg)

/-- Dropping the held element at the hole yields the full heap property
from the three hole-state facts. -/
theorem heapProp_assemble (data : List (K × T)) (elt : K × T) (pos : Nat)
    (hlen : pos < data.length) (hE : hpE cmp data pos)
    (hUp : hpUp cmp data elt pos) (hD : hpD cmp data elt pos) :
    heapProp cmp (data.set pos elt) := by
  intro i v w hi hv hw
  by_cases hip : i = pos
  · subst hip
    rw [List.getElem?_set_self hlen] at hv
    obtain rfl : elt = v := Option.some.inj hv
    have hpar_ne : i ≠ (i - 1) / 2 := by omega
    rw [List.getElem?_set_ne hpar_ne] at hw
    exact hUp hi w hw
  · rw [List.getElem?_set_ne (fun h => hip h.symm)] at hv
    by_cases hpp : (i - 1) / 2 = pos
    · rw [hpp, List.getElem?_set_self hlen] at hw
      obtain rfl : elt = w := Option.some.inj hw
      exact hD i v hi hpp hv
    · rw [List.getElem?_set_ne (fun h => hpp h.symm)] at hw
      exact hE i v w hi hip hpp hv hw

/-- Heap-order behaviour of the `sift_up` loop started at `start = 0`:
from the hole-edge invariants `hpE`/`hpG`, (a) the extra fact `hpD` makes
the result a full heap, and (b) either the hole never moved (and the
element's parent edge was checked), or the result is a full heap. -/
theorem siftUpLoop_hp (hL : LawfulCmp cmp) (elt : K × T) :
    ∀ (fuel pos : Nat) (data : List (K × T)) (keys : List (K × Nat)),
      pos < fuel → pos < data.length →
      hpE cmp data pos → hpG cmp data pos →
      (hpD cmp data elt pos →
        heapProp cmp (siftUpLoop keq cmp 0 elt fuel pos data keys).1) ∧
      (((siftUpLoop keq cmp 0 elt fuel pos data keys).2.2 = pos ∧
        (siftUpLoop keq cmp 0 elt fuel pos data keys).1 = data.set pos elt ∧
        hpUp cmp data elt pos) ∨
        heapProp cmp (siftUpLoop keq cmp 0 elt fuel pos data keys).1) := by
  intro fuel
  induction fuel with
  | zero =>
    intro pos data keys hf
    exact absurd hf (Nat.not_lt_zero pos)
  | succ fuel ih =>
    intro pos data keys hf hlen hE hG
    simp only [siftUpLoop]
    by_cases hp0 : 0 < pos
    · rw [if_pos hp0]
      have hparlt : (pos - 1) / 2 < data.length := by omega
      cases hpar : data[(pos - 1) / 2]? with
      | none =>
        rw [List.getElem?_eq_getElem hparlt] at hpar
        exact absurd hpar (by simp)
      | some p =>
        dsimp only
        by_cases hc : cmpLe cmp elt.2 p.2 = true
        · rw [if_pos hc]
          have hup : hpUp cmp data elt pos := by
            intro _ w hw
            rw [hpar] at hw
            obtain rfl : p = w := Option.some.inj hw
            exact (cmpLe_true_iff elt.2 p.2).1 hc
          exact ⟨fun hD => heapProp_assemble data elt pos hlen hE hup hD,
            Or.inl ⟨rfl, rfl, hup⟩⟩
        · rw [if_neg hc]
          have hgt : cmp elt.2 p.2 = .gt := by
            have hc2 : cmpLe cmp elt.2 p.2 = false := by
              cases hb : cmpLe cmp elt.2 p.2
              · rfl
              · exact absurd hb hc
            exact (cmpLe_false_iff elt.2 p.2).1 hc2
          have hppos : (pos - 1) / 2 < pos := by omega
          have hpne : (pos - 1) / 2 ≠ pos := by omega
          have hE2 : hpE cmp (data.set pos p) ((pos - 1) / 2) := by
            intro i v w hi hip hpp hv hw
            by_cases hie : i = pos
            · exact absurd (hie ▸ rfl) hpp
            · rw [List.getElem?_set_ne (fun h => hie h.symm)] at hv
              by_cases hppe : (i - 1) / 2 = pos
              · rw [hppe, List.getElem?_set_self hlen] at hw
                obtain rfl : p = w := Option.some.inj hw
                exact hG i v p hp0 hppe hv hpar
              · rw [List.getElem?_set_ne (fun h => hppe h.symm)] at hw
                exact hE i v w hi hie hppe hv hw
          have hG2 : hpG cmp (data.set pos p) ((pos - 1) / 2) := by
            intro c v w hq0 hcq hv hw
            have hgne : ((pos - 1) / 2 - 1) / 2 ≠ pos := by omega
            rw [List.getElem?_set_ne (fun h => hgne h.symm)] at hw
            have hedge : cmp p.2 w.2 ≠ .gt :=
              hE ((pos - 1) / 2) p w hq0 hpne hgne hpar hw
            by_cases hce : c = pos
            · subst hce
              rw [List.getElem?_set_self hlen] at hv
              obtain rfl : p = v := Option.some.inj hv
              exact hedge
            · rw [List.getElem?_set_ne (fun h => hce h.symm)] at hv
              have hc0 : 0 < c := by omega
              have hvp : cmp v.2 p.2 ≠ .gt :=
                hE c v p hc0 hce (hcq ▸ hpne) hv (by rw [hcq]; exact hpar)
              exact hL.le_trans v.2 p.2 w.2 hvp hedge
          have hD2 : hpD cmp (data.set pos p) elt ((pos - 1) / 2) := by
            intro c v hc0 hcq hv
            have hple : cmp p.2 elt.2 ≠ .gt := le_of_flip_gt hL hgt
            by_cases hce : c = pos
            · subst hce
              rw [List.getElem?_set_self hlen] at hv
              obtain rfl : p = v := Option.some.inj hv
              exact hple
            · rw [List.getElem?_set_ne (fun h => hce h.symm)] at hv
              have hvp : cmp v.2 p.2 ≠ .gt :=
                hE c v p hc0 hce (hcq ▸ hpne) hv (by rw [hcq]; exact hpar)
              exact hL.le_trans v.2 p.2 elt.2 hvp hple
          have hfin := (ih ((pos - 1) / 2) (data.set pos p)
            (alSet keq keys p.1 pos) (by omega)
            (by rw [List.length_set]; omega) hE2 hG2).1 hD2
          exact ⟨fun _ => hfin, Or.inr hfin⟩
    · rw [if_neg hp0]
      have hup : hpUp cmp data elt pos := fun h0 _ _ => absurd h0 hp0
      exact ⟨fun hD => heapProp_assemble data elt pos hlen hE hup hD,
        Or.inl ⟨rfl, rfl, hup⟩⟩

/-- Heap-order behaviour of the full-range `sift_down` loop: from the
hole-edge invariants `hpE`/`hpUp`/`hpG` the result is a full heap. -/
theorem siftDownLoop_hp (hL : LawfulCmp cmp) (endi : Nat) (elt : K × T) :
    ∀ (fuel pos : Nat) (data : List (K × T)) (keys : List (K × Nat)),
      endi = data.length → endi < fuel + pos → pos < data.length →
      hpE cmp data pos → hpUp cmp data elt pos → hpG cmp data pos →
      heapProp cmp (siftDownLoop keq cmp endi elt fuel pos data keys).1 := by
  intro fuel
  induction fuel with
  | zero =>
    intro pos data keys hend hfa hlen
    exact absurd hlen (by omega)
  | succ fuel ih =>
    intro pos data keys hend hfa hlen hE hUp hG
    simp only [siftDownLoop]
    by_cases hin : 2 * pos + 1 ≤ endi - 2
    · rw [if_pos hin]
      have hc_lt : 2 * pos + 1 < data.length := by omega
      have hc1_lt : 2 * pos + 1 + 1 < data.length := by omega
      cases hc : data[2 * pos + 1]? with
      | none =>
        rw [List.getElem?_eq_getElem hc_lt] at hc
        exact absurd hc (by simp)
      | some c =>
        cases hc1 : data[2 * pos + 1 + 1]? with
        | none =>
          rw [List.getElem?_eq_getElem hc1_lt] at hc1
          exact absurd hc1 (by simp)
        | some c1 =>
          dsimp only
          by_cases hsel : cmpLe cmp c.2 c1.2 = true
          · simp only [hsel, if_true]
            have hother : cmp c.2 c1.2 ≠ .gt := (cmpLe_true_iff c.2 c1.2).1 hsel
            by_cases hge : cmpGe cmp elt.2 c1.2 = true
            · rw [if_pos hge]
              have hsle : cmp c1.2 elt.2 ≠ .gt :=
                le_of_flip_not_lt hL ((cmpGe_true_iff elt.2 c1.2).1 hge)
              have hD : hpD cmp data elt pos := by
                intro ci v hc0 hcpar hv
                have hci : ci = 2 * pos + 1 ∨ ci = 2 * pos + 1 + 1 := by omega
                cases hci with
                | inl h =>
                  rw [h, hc] at hv
                  obtain rfl : c = v := Option.some.inj hv
                  exact hL.le_trans c.2 c1.2 elt.2 hother hsle
                | inr h =>
                  rw [h, hc1] at hv
                  obtain rfl : c1 = v := Option.some.inj hv
                  exact hsle
              exact heapProp_assemble data elt pos hlen hE hUp hD
            · rw [if_neg hge]
              have hlt : cmp elt.2 c1.2 = .lt := by
                refine (cmpGe_false_iff elt.2 c1.2).1 ?_
                cases hb : cmpGe cmp elt.2 c1.2
                · rfl
                · exact absurd hb hge
              have hpos_ne : pos ≠ 2 * pos + 1 + 1 := by omega
              have hE2 : hpE cmp (data.set pos c1) (2 * pos + 1 + 1) := by
                intro i v w hi hip hpp hv hw
                by_cases hie : i = pos
                · subst hie
                  rw [List.getElem?_set_self hlen] at hv
                  obtain rfl : c1 = v := Option.some.inj hv
                  have hp0 : 0 < i := hi
                  have hpar_ne : i ≠ (i - 1) / 2 := by omega
                  rw [List.getElem?_set_ne hpar_ne] at hw
                  exact hG (2 * i + 1 + 1) c1 w hp0 (by omega) hc1 hw
                · rw [List.getElem?_set_ne (fun h => hie h.symm)] at hv
                  by_cases hppe : (i - 1) / 2 = pos
                  · rw [hppe, List.getElem?_set_self hlen] at hw
                    obtain rfl : c1 = w := Option.some.inj hw
                    have hieq : i = 2 * pos + 1 := by omega
                    rw [hieq, hc] at hv
                    obtain rfl : c = v := Option.some.inj hv
                    exact hother
                  · rw [List.getElem?_set_ne (fun h => hppe h.symm)] at hw
                    exact hE i v w hi hie hppe hv hw
              have hUp2 : hpUp cmp (data.set pos c1) elt (2 * pos + 1 + 1) := by
                intro _ w hw
                have hpe : (2 * pos + 1 + 1 - 1) / 2 = pos := by omega
                rw [hpe, List.getElem?_set_self hlen] at hw
                obtain rfl : c1 = w := Option.some.inj hw
                rw [hlt]; decide
              have hG2 : hpG cmp (data.set pos c1) (2 * pos + 1 + 1) := by
                intro cc v w hq0 hcq hv hw
                have hpe : (2 * pos + 1 + 1 - 1) / 2 = pos := by omega
                rw [hpe, List.getElem?_set_self hlen] at hw
                obtain rfl : c1 = w := Option.some.inj hw
                have hcc_ne : cc ≠ pos := by omega
                rw [List.getElem?_set_ne (fun h => hcc_ne h.symm)] at hv
                have hcpne : (cc - 1) / 2 ≠ pos := by omega
                refine hE cc v c1 (by omega) hcc_ne hcpne hv ?_
                rw [hcq]
                exact hc1
              refine ih (2 * pos + 1 + 1) (data.set pos c1)
                (alSet keq keys c1.1 pos) ?_ (by omega) ?_ hE2 hUp2 hG2
              · rw [List.length_set]; exact hend
              · rw [List.length_set]; omega
          · simp only [Bool.not_eq_true] at hsel
            simp only [hsel, Bool.false_eq_true, if_false]
            have hother : cmp c1.2 c.2 ≠ .gt :=
              le_of_flip_gt hL ((cmpLe_false_iff c.2 c1.2).1 hsel)
            by_cases hge : cmpGe cmp elt.2 c.2 = true
            · rw [if_pos hge]
              have hsle : cmp c.2 elt.2 ≠ .gt :=
                le_of_flip_not_lt hL ((cmpGe_true_iff elt.2 c.2).1 hge)
              have hD : hpD cmp data elt pos := by
                intro ci v hc0 hcpar hv
                have hci : ci = 2 * pos + 1 ∨ ci = 2 * pos + 1 + 1 := by omega
                cases hci with
                | inl h =>
                  rw [h, hc] at hv
                  obtain rfl : c = v := Option.some.inj hv
                  exact hsle
                | inr h =>
                  rw [h, hc1] at hv
                  obtain rfl : c1 = v := Option.some.inj hv
                  exact hL.le_trans c1.2 c.2 elt.2 hother hsle
              exact heapProp_assemble data elt pos hlen hE hUp hD
            · rw [if_neg hge]
              have hlt : cmp elt.2 c.2 = .lt := by
                refine (cmpGe_false_iff elt.2 c.2).1 ?_
                cases hb : cmpGe cmp elt.2 c.2
                · rfl
                · exact absurd hb hge
              have hE2 : hpE cmp (data.set pos c) (2 * pos + 1) := by
                intro i v w hi hip hpp hv hw
                by_cases hie : i = pos
                · subst hie
                  rw [List.getElem?_set_self hlen] at hv
                  obtain rfl : c = v := Option.some.inj hv
                  have hp0 : 0 < i := hi
                  have hpar_ne : i ≠ (i - 1) / 2 := by omega
                  rw [List.getElem?_set_ne hpar_ne] at hw
                  exact hG (2 * i + 1) c w hp0 (by omega) hc hw
                · rw [List.getElem?_set_ne (fun h => hie h.symm)] at hv
                  by_cases hppe : (i - 1) / 2 = pos
                  · rw [hppe, List.getElem?_set_self hlen] at hw
                    obtain rfl : c = w := Option.some.inj hw
                    have hieq : i = 2 * pos + 1 + 1 := by omega
                    rw [hieq, hc1] at hv
                    obtain rfl : c1 = v := Option.some.inj hv
                    exact hother
                  · rw [List.getElem?_set_ne (fun h => hppe h.symm)] at hw
                    exact hE i v w hi hie hppe hv hw
              have hUp2 : hpUp cmp (data.set pos c) elt (2 * pos + 1) := by
                intro _ w hw
                have hpe : (2 * pos + 1 - 1) / 2 = pos := by omega
                rw [hpe, List.getElem?_set_self hlen] at hw
                obtain rfl : c = w := Option.some.inj hw
                rw [hlt]; decide
              have hG2 : hpG cmp (data.set pos c) (2 * pos + 1) := by
                intro cc v w hq0 hcq hv hw
                have hpe : (2 * pos + 1 - 1) / 2 = pos := by omega
                rw [hpe, List.getElem?_set_self hlen] at hw
                obtain rfl : c = w := Option.some.inj hw
                have hcc_ne : cc ≠ pos := by omega
                rw [List.getElem?_set_ne (fun h => hcc_ne h.symm)] at hv
                have hcpne : (cc - 1) / 2 ≠ pos := by omega
                refine hE cc v c (by omega) hcc_ne hcpne hv ?_
                rw [hcq]
                exact hc
              refine ih (2 * pos + 1) (data.set pos c)
                (alSet keq keys c.1 pos) ?_ (by omega) ?_ hE2 hUp2 hG2
              · rw [List.length_set]; exact hend
              · rw [List.length_set]; omega
    · rw [if_neg hin]
      by_cases hlast : 2 * pos + 1 = endi - 1
      · rw [if_pos hlast]
        have hc_lt : 2 * pos + 1 < data.length := by omega
        cases hc : data[2 * pos + 1]? with
        | none =>
          rw [List.getElem?_eq_getElem hc_lt] at hc
          exact absurd hc (by simp)
        | some c =>
          dsimp only
          by_cases hlt : cmpLt cmp elt.2 c.2 = true
          · rw [if_pos hlt]
            have hltv : cmp elt.2 c.2 = .lt := (cmpLt_true_iff elt.2 c.2).1 hlt
            have hE2 : hpE cmp (data.set pos c) (2 * pos + 1) := by
              intro i v w hi hip hpp hv hw
              by_cases hie : i = pos
              · subst hie
                rw [List.getElem?_set_self hlen] at hv
                obtain rfl : c = v := Option.some.inj hv
                have hp0 : 0 < i := hi
                have hpar_ne : i ≠ (i - 1) / 2 := by omega
                rw [List.getElem?_set_ne hpar_ne] at hw
                exact hG (2 * i + 1) c w hp0 (by omega) hc hw
              · rw [List.getElem?_set_ne (fun h => hie h.symm)] at hv
                by_cases hppe : (i - 1) / 2 = pos
                · have hieq : i = 2 * pos + 1 + 1 := by omega
                  have hnone : data[i]? = none := by
                    apply List.getElem?_eq_none
                    omega
                  rw [hnone] at hv
                  exact absurd hv (by simp)
                · rw [List.getElem?_set_ne (fun h => hppe h.symm)] at hw
                  exact hE i v w hi hie hppe hv hw
            have hUp2 : hpUp cmp (data.set pos c) elt (2 * pos + 1) := by
              intro _ w hw
              have hpe : (2 * pos + 1 - 1) / 2 = pos := by omega
              rw [hpe, List.getElem?_set_self hlen] at hw
              obtain rfl : c = w := Option.some.inj hw
              rw [hltv]; decide
            have hD2 : hpD cmp (data.set pos c) elt (2 * pos + 1) := by
              intro cc v hc0 hcq hv
              have hnone : (data.set pos c)[cc]? = none := by
                apply List.getElem?_eq_none
                rw [List.length_set]
                omega
              rw [hnone] at hv
              exact absurd hv (by simp)
            have hgoal := heapProp_assemble (data.set pos c) elt (2 * pos + 1)
              (by rw [List.length_set]; omega) hE2 hUp2 hD2
            exact hgoal
          · rw [if_neg hlt]
            have hge : cmp elt.2 c.2 ≠ .lt := by
              refine (cmpLt_false_iff elt.2 c.2).1 ?_
              cases hb : cmpLt cmp elt.2 c.2
              · rfl
              · exact absurd hb hlt
            have hsle : cmp c.2 elt.2 ≠ .gt := le_of_flip_not_lt hL hge
            have hD : hpD cmp data elt pos := by
              intro ci v hc0 hcpar hv
              have hci : ci = 2 * pos + 1 ∨ ci = 2 * pos + 1 + 1 := by omega
              cases hci with
              | inl h =>
                rw [h, hc] at hv
                obtain rfl : c = v := Option.some.inj hv
                exact hsle
              | inr h =>
                have hnone : data[ci]? = none := by
                  apply List.getElem?_eq_none
                  omega
                rw [hnone] at hv
                exact absurd hv (by simp)
            exact heapProp_assemble data elt pos hlen hE hUp hD
      · rw [if_neg hlast]
        have hD : hpD cmp data elt pos := by
          intro ci v hc0 hcpar hv
          have hnone : data[ci]? = none := by
            apply List.getElem?_eq_none
            omega
          rw [hnone] at hv
          exact absurd hv (by simp)
        exact heapProp_assemble data elt pos hlen hE hUp hD

/-- `sift_up(0, pos)` through the wrapper that reads the element. -/
theorem siftUp_hp (hL : LawfulCmp cmp) {pos : Nat} {data : List (K × T)}
    {keys : List (K × Nat)} {elt : K × T} (helt : data[pos]? = some elt)
    (hE : hpE cmp data pos) (hG : hpG cmp data pos) :
    (hpD cmp data elt pos → heapProp cmp (siftUp keq cmp 0 pos data keys).1) ∧
    (((siftUp keq cmp 0 pos data keys).2.2 = pos ∧
      (siftUp keq cmp 0 pos data keys).1 = data.set pos elt ∧
      hpUp cmp data elt pos) ∨
      heapProp cmp (siftUp keq cmp 0 pos data keys).1) := by
  have hlen : pos < data.length := (List.getElem?_eq_some.1 helt).1
  unfold siftUp
  rw [helt]
  dsimp only
  exact siftUpLoop_hp hL elt (pos + 1) pos data keys (by omega) hlen hE hG

/-- `sift_down(pos)` (full range) through the wrapper. -/
theorem siftDown_hp (hL : LawfulCmp cmp) {pos : Nat} {data : List (K × T)}
    {keys : List (K × Nat)} {elt : K × T} (helt : data[pos]? = some elt)
    (hE : hpE cmp data pos) (hUp : hpUp cmp data elt pos)
    (hG : hpG cmp data pos) :
    heapProp cmp (siftDown keq cmp pos data keys).1 := by
  have hlen : pos < data.length := (List.getElem?_eq_some.1 helt).1
  unfold siftDown siftDownRange
  rw [helt]
  dsimp only
  exact siftDownLoop_hp hL data.length elt (data.length + 1) pos data keys rfl
    (by omega) hlen hE hUp hG

/-- The bottom walk keeps the hole-edge invariant, and its final hole is
childless (its first child index is at least `endi`). -/
theorem siftBottomLoop_hp (hL : LawfulCmp cmp) (endi : Nat) (elt : K × T) :
    ∀ (fuel pos : Nat) (data : List (K × T)) (keys : List (K × Nat)),
      endi = data.length → endi < fuel + pos → pos < data.length →
      hpE cmp data pos → hpG cmp data pos →
      hpE cmp (siftBottomLoop keq cmp endi elt fuel pos data keys).1
        (siftBottomLoop keq cmp endi elt fuel pos data keys).2.2 ∧
      endi ≤ 2 * (siftBottomLoop keq cmp endi elt fuel pos data keys).2.2 + 1 ∧
      (siftBottomLoop keq cmp endi elt fuel pos data keys).2.2 <
        (siftBottomLoop keq cmp endi elt fuel pos data keys).1.length ∧
      (siftBottomLoop keq cmp endi elt fuel pos data keys).1.length =
        data.length := by
  intro fuel
  induction fuel with
  | zero =>
    intro pos data keys hend hfa hlen
    exact absurd hlen (by omega)
  | succ fuel ih =>
    intro pos data keys hend hfa hlen hE hG
    simp only [siftBottomLoop]
    by_cases hin : 2 * pos + 1 ≤ endi - 2
    · rw [if_pos hin]
      have hc_lt : 2 * pos + 1 < data.length := by omega
      have hc1_lt : 2 * pos + 1 + 1 < data.length := by omega
      cases hc : data[2 * pos + 1]? with
      | none =>
        rw [List.getElem?_eq_getElem hc_lt] at hc
        exact absurd hc (by simp)
      | some c =>
        cases hc1 : data[2 * pos + 1 + 1]? with
        | none =>
          rw [List.getElem?_eq_getElem hc1_lt] at hc1
          exact absurd hc1 (by simp)
        | some c1 =>
          dsimp only
          by_cases hsel : cmpLe cmp c.2 c1.2 = true
          · simp only [hsel, if_true]
            have hother : cmp c.2 c1.2 ≠ .gt := (cmpLe_true_iff c.2 c1.2).1 hsel
            have hE2 : hpE cmp (data.set pos c1) (2 * pos + 1 + 1) := by
              intro i v w hi hip hpp hv hw
              by_cases hie : i = pos
              · subst hie
                rw [List.getElem?_set_self hlen] at hv
                obtain rfl : c1 = v := Option.some.inj hv
                have hp0 : 0 < i := hi
                have hpar_ne : i ≠ (i - 1) / 2 := by omega
                rw [List.getElem?_set_ne hpar_ne] at hw
                exact hG (2 * i + 1 + 1) c1 w hp0 (by omega) hc1 hw
              · rw [List.getElem?_set_ne (fun h => hie h.symm)] at hv
                by_cases hppe : (i - 1) / 2 = pos
                · rw [hppe, List.getElem?_set_self hlen] at hw
                  obtain rfl : c1 = w := Option.some.inj hw
                  have hieq : i = 2 * pos + 1 := by omega
                  rw [hieq, hc] at hv
                  obtain rfl : c = v := Option.some.inj hv
                  exact hother
                · rw [List.getElem?_set_ne (fun h => hppe h.symm)] at hw
                  exact hE i v w hi hie hppe hv hw
            have hG2 : hpG cmp (data.set pos c1) (2 * pos + 1 + 1) := by
              intro cc v w hq0 hcq hv hw
              have hpe : (2 * pos + 1 + 1 - 1) / 2 = pos := by omega
              rw [hpe, List.getElem?_set_self hlen] at hw
              obtain rfl : c1 = w := Option.some.inj hw
              have hcc_ne : cc ≠ pos := by omega
              rw [List.getElem?_set_ne (fun h => hcc_ne h.symm)] at hv
              have hcpne : (cc - 1) / 2 ≠ pos := by omega
              refine hE cc v c1 (by omega) hcc_ne hcpne hv ?_
              rw [hcq]
              exact hc1
            have hrec := ih (2 * pos + 1 + 1) (data.set pos c1)
              (alSet keq keys c1.1 pos) (by rw [List.length_set]; exact hend)
              (by omega) (by rw [List.length_set]; omega) hE2 hG2
            refine ⟨hrec.1, hrec.2.1, hrec.2.2.1, ?_⟩
            rw [hrec.2.2.2, List.length_set]
          · simp only [Bool.not_eq_true] at hsel
            simp only [hsel, Bool.false_eq_true, if_false]
            have hother : cmp c1.2 c.2 ≠ .gt :=
              le_of_flip_gt hL ((cmpLe_false_iff c.2 c1.2).1 hsel)
            have hE2 : hpE cmp (data.set pos c) (2 * pos + 1) := by
              intro i v w hi hip hpp hv hw
              by_cases hie : i = pos
              · subst hie
                rw [List.getElem?_set_self hlen] at hv
                obtain rfl : c = v := Option.some.inj hv
                have hp0 : 0 < i := hi
                have hpar_ne : i ≠ (i - 1) / 2 := by omega
                rw [List.getElem?_set_ne hpar_ne] at hw
                exact hG (2 * i + 1) c w hp0 (by omega) hc hw
              · rw [List.getElem?_set_ne (fun h => hie h.symm)] at hv
                by_cases hppe : (i - 1) / 2 = pos
                · rw [hppe, List.getElem?_set_self hlen] at hw
                  obtain rfl : c = w := Option.some.inj hw
                  have hieq : i = 2 * pos + 1 + 1 := by omega
                  rw [hieq, hc1] at hv
                  obtain rfl : c1 = v := Option.some.inj hv
                  exact hother
                · rw [List.getElem?_set_ne (fun h => hppe h.symm)] at hw
                  exact hE i v w hi hie hppe hv hw
            have hG2 : hpG cmp (data.set pos c) (2 * pos + 1) := by
              intro cc v w hq0 hcq hv hw
              have hpe : (2 * pos + 1 - 1) / 2 = pos := by omega
              rw [hpe, List.getElem?_set_self hlen] at hw
              obtain rfl : c = w := Option.some.inj hw
              have hcc_ne : cc ≠ pos := by omega
              rw [List.getElem?_set_ne (fun h => hcc_ne h.symm)] at hv
              have hcpne : (cc - 1) / 2 ≠ pos := by omega
              refine hE cc v c (by omega) hcc_ne hcpne hv ?_
              rw [hcq]
              exact hc
            have hrec := ih (2 * pos + 1) (data.set pos c)
              (alSet keq keys c.1 pos) (by rw [List.length_set]; exact hend)
              (by omega) (by rw [List.length_set]; omega) hE2 hG2
            refine ⟨hrec.1, hrec.2.1, hrec.2.2.1, ?_⟩
            rw [hrec.2.2.2, List.length_set]
    · rw [if_neg hin]
      by_cases hlast : 2 * pos + 1 = endi - 1
      · rw [if_pos hlast]
        have hc_lt : 2 * pos + 1 < data.length := by omega
        cases hc : data[2 * pos + 1]? with
        | none =>
          rw [List.getElem?_eq_getElem hc_lt] at hc
          exact absurd hc (by simp)
        | some c =>
          dsimp only
          refine ⟨?_, ?_, ?_, ?_⟩
          · show hpE cmp (data.set pos c) (2 * pos + 1)
            intro i v w hi hip hpp hv hw
            by_cases hie : i = pos
            · subst hie
              rw [List.getElem?_set_self hlen] at hv
              obtain rfl : c = v := Option.some.inj hv
              have hp0 : 0 < i := hi
              have hpar_ne : i ≠ (i - 1) / 2 := by omega
              rw [List.getElem?_set_ne hpar_ne] at hw
              exact hG (2 * i + 1) c w hp0 (by omega) hc hw
            · rw [List.getElem?_set_ne (fun h => hie h.symm)] at hv
              by_cases hppe : (i - 1) / 2 = pos
              · have hieq : i = 2 * pos + 1 + 1 := by omega
                have hnone : data[i]? = none := by
                  apply List.getElem?_eq_none
                  omega
                rw [hnone] at hv
                exact absurd hv (by simp)
              · rw [List.getElem?_set_ne (fun h => hppe h.symm)] at hw
                exact hE i v w hi hie hppe hv hw
          · show endi ≤ 2 * (2 * pos + 1) + 1
            omega
          · show 2 * pos + 1 < (data.set pos c).length
            rw [List.length_set]
            omega
          · show (data.set pos c).length = data.length
            rw [List.length_set]
      · rw [if_neg hlast]
        refine ⟨hE, ?_, hlen, rfl⟩
        show endi ≤ 2 * pos + 1
        omega

/-- `sift_down_to_bottom(0)` (the `pop` path, where the final `sift_up`
starts at the root) restores the full heap property from the root-hole
edge invariant. -/
theorem siftDownToBottom_hp (hL : LawfulCmp cmp) (data : List (K × T))
    (keys : List (K × Nat)) {elt : K × T} (helt : data[0]? = some elt)
    (hE : hpE cmp data 0) :
    heapProp cmp (siftDownToBottom keq cmp 0 data keys).1 := by
  have hlen : (0 : Nat) < data.length := (List.getElem?_eq_some.1 helt).1
  unfold siftDownToBottom
  rw [helt]
  dsimp only
  have hG0 : hpG cmp data 0 := fun c v w h0 _ _ _ => absurd h0 (Nat.lt_irrefl 0)
  have hwalk := @siftBottomLoop_hp K T keq cmp hL data.length elt
    (data.length + 1) 0 data keys rfl (by omega) hlen hE hG0
  have hb := hwalk.2.1
  have hpl := hwalk.2.2.1
  have hll := hwalk.2.2.2
  have hset : ((siftBottomLoop keq cmp data.length elt (data.length + 1) 0 data
      keys).1.set (siftBottomLoop keq cmp data.length elt (data.length + 1) 0
      data keys).2.2 elt)[(siftBottomLoop keq cmp data.length elt
      (data.length + 1) 0 data keys).2.2]? = some elt :=
    List.getElem?_set_self hpl
  have hE2 : hpE cmp ((siftBottomLoop keq cmp data.length elt (data.length + 1)
      0 data keys).1.set (siftBottomLoop keq cmp data.length elt
      (data.length + 1) 0 data keys).2.2 elt)
      (siftBottomLoop keq cmp data.length elt (data.length + 1) 0 data
        keys).2.2 := by
    intro i v w hi hip hpp hv hw
    rw [List.getElem?_set_ne (fun h => hip h.symm)] at hv
    rw [List.getElem?_set_ne (fun h => hpp h.symm)] at hw
    exact hwalk.1 i v w hi hip hpp hv hw
  have hG2 : hpG cmp ((siftBottomLoop keq cmp data.length elt (data.length + 1)
      0 data keys).1.set (siftBottomLoop keq cmp data.length elt
      (data.length + 1) 0 data keys).2.2 elt)
      (siftBottomLoop keq cmp data.length elt (data.length + 1) 0 data
        keys).2.2 := by
    intro cc v w h0 hcq hv hw
    have hnone : ((siftBottomLoop keq cmp data.length elt (data.length + 1) 0
        data keys).1.set (siftBottomLoop keq cmp data.length elt
        (data.length + 1) 0 data keys).2.2 elt)[cc]? = none := by
      apply List.getElem?_eq_none
      rw [List.length_set]
      omega
    rw [hnone] at hv
    exact absurd hv (by simp)
  have hD2 : hpD cmp ((siftBottomLoop keq cmp data.length elt (data.length + 1)
      0 data keys).1.set (siftBottomLoop keq cmp data.length elt
      (data.length + 1) 0 data keys).2.2 elt) elt
      (siftBottomLoop keq cmp data.length elt (data.length + 1) 0 data
        keys).2.2 := by
    intro cc v hc0 hcq hv
    have hnone : ((siftBottomLoop keq cmp data.length elt (data.length + 1) 0
        data keys).1.set (siftBottomLoop keq cmp data.length elt
        (data.length + 1) 0 data keys).2.2 elt)[cc]? = none := by
      apply List.getElem?_eq_none
      rw [List.length_set]
      omega
    rw [hnone] at hv
    exact absurd hv (by simp)
  exact (siftUp_hp hL hset hE2 hG2).1 hD2

/-- `update_item` (`updateAt`) on a heap whose order was broken only by
mutating the value at `pos` restores the full heap property. -/
theorem updateAt_hp (hkl : KeqLawful keq) {h : Heap K T} (hL : LawfulCmp h.cmp)
    (hV : Valid keq h) {pos : Nat} {kv : K × T} {v0 : T}
    (helt : h.data[pos]? = some kv)
    (hA : heapProp h.cmp (h.data.set pos (kv.1, v0))) :
    heapProp h.cmp (h.updateAt keq pos).data := by
  have hlen : pos < h.data.length := (List.getElem?_eq_some.1 helt).1
  have hE : hpE h.cmp h.data pos := by
    intro i v w hi hip hpp hv hw
    refine hA i v w hi ?_ ?_
    · rw [List.getElem?_set_ne (fun hcon => hip hcon.symm)]
      exact hv
    · rw [List.getElem?_set_ne (fun hcon => hpp hcon.symm)]
      exact hw
  have hG : hpG h.cmp h.data pos := by
    intro c v w hp0 hcq hv hw
    have hc0 : 0 < c := by omega
    have hcne : c ≠ pos := by omega
    have h1 : h.cmp v.2 v0 ≠ .gt := by
      refine hA c v (kv.1, v0) hc0 ?_ ?_
      · rw [List.getElem?_set_ne (fun hcon => hcne hcon.symm)]
        exact hv
      · rw [hcq]
        exact List.getElem?_set_self hlen
    have h2 : h.cmp v0 w.2 ≠ .gt := by
      refine hA pos (kv.1, v0) w hp0 (List.getElem?_set_self hlen) ?_
      rw [List.getElem?_set_ne (by omega : pos ≠ (pos - 1) / 2)]
      exact hw
    exact hL.le_trans v.2 v0 w.2 h1 h2
  have hsu := @siftUp_hp K T keq h.cmp hL pos h.data h.keys kv helt hE hG
  unfold Heap.updateAt
  by_cases hmoved : (siftUp keq h.cmp 0 pos h.data h.keys).2.2 ≠ pos
  · rw [if_pos hmoved]
    cases hsu.2 with
    | inl hl => exact absurd hl.1 hmoved
    | inr hr => exact hr
  · rw [if_neg hmoved]
    push_neg at hmoved
    cases hsu.2 with
    | inl hl =>
      obtain ⟨hpos, hdata, hup⟩ := hl
      have helt2 : (siftUp keq h.cmp 0 pos h.data h.keys).1[pos]? = some kv := by
        rw [hdata]
        exact List.getElem?_set_self hlen
      have hE2 : hpE h.cmp (siftUp keq h.cmp 0 pos h.data h.keys).1 pos := by
        rw [hdata]
        intro i v w hi hip hpp hv hw
        rw [List.getElem?_set_ne (fun hcon => hip hcon.symm)] at hv
        rw [List.getElem?_set_ne (fun hcon => hpp hcon.symm)] at hw
        exact hE i v w hi hip hpp hv hw
      have hUp2 : hpUp h.cmp (siftUp keq h.cmp 0 pos h.data h.keys).1 kv pos := by
        rw [hdata]
        intro hp0 w hw
        rw [List.getElem?_set_ne (by omega : pos ≠ (pos - 1) / 2)] at hw
        exact hup hp0 w hw
      have hG2 : hpG h.cmp (siftUp keq h.cmp 0 pos h.data h.keys).1 pos := by
        rw [hdata]
        intro c v w hp0 hcq hv hw
        rw [List.getElem?_set_ne (by omega : pos ≠ c)] at hv
        rw [List.getElem?_set_ne (by omega : pos ≠ (pos - 1) / 2)] at hw
        exact hG c v w hp0 hcq hv hw
      exact siftDown_hp hL helt2 hE2 hUp2 hG2
    | inr hr =>
      have hout := @siftUp_out K T keq h.cmp hkl 0 pos h.data h.keys kv helt
        (valid_holeInv hkl hV helt)
      have helt2 : (siftUp keq h.cmp 0 pos h.data h.keys).1[pos]? = some kv := by
        have helt3 := hout.elt_at
        rw [hmoved] at helt3
        exact helt3
      refine siftDown_hp hL helt2 ?_ ?_ ?_
      · intro i v w hi hip hpp hv hw
        exact hr i v w hi hv hw
      · intro hp0 w hw
        exact hr pos kv w hp0 helt2 hw
      · intro c v w hp0 hcq hv hw
        have h1 : h.cmp v.2 kv.2 ≠ .gt := by
          refine hr c v kv (by omega) hv ?_
          rw [hcq]
          exact helt2
        exact hL.le_trans v.2 kv.2 w.2 h1 (hr pos kv w hp0 helt2 hw)

/-- `pop_with_key` keeps the comparator. -/
theorem popWithKey_cmp (h : Heap K T) : (h.popWithKey keq).1.cmp = h.cmp := by
  unfold Heap.popWithKey
  cases h.data.getLast? with
  | none => rfl
  | some last =>
    dsimp only
    by_cases h0 : h.data.dropLast.length = 0
    · rw [if_pos h0]
    · rw [if_neg h0]
      cases h.data.dropLast[0]? with
      | none => rfl
      | some root => rfl

/-- When `pop_with_key` returns a pair, it is the pair stored at the root. -/
theorem popWithKey_returns_root {h : Heap K T} {kv : K × T}
    (hpop : (h.popWithKey keq).2 = some kv) : h.data[0]? = some kv := by
  unfold Heap.popWithKey at hpop
  cases hl : h.data.getLast? with
  | none =>
    rw [hl] at hpop
    cases hpop
  | some last =>
    rw [hl] at hpop
    dsimp only at hpop
    by_cases h0 : h.data.dropLast.length = 0
    · rw [if_pos h0] at hpop
      obtain rfl : last = kv := Option.some.inj hpop
      rw [List.getLast?_eq_getElem?] at hl
      have hpos0 : h.data.length - 1 < h.data.length :=
        (List.getElem?_eq_some.1 hl).1
      rw [List.length_dropLast] at h0
      rw [← hl]
      congr 1
      omega
    · rw [if_neg h0] at hpop
      cases hr : h.data.dropLast[0]? with
      | none =>
        rw [hr] at hpop
        cases hpop
      | some root =>
        rw [hr] at hpop
        dsimp only at hpop
        obtain rfl : root = kv := Option.some.inj hpop
        rw [List.getElem?_dropLast] at hr
        rw [List.length_dropLast] at h0
        rw [if_pos (by omega)] at hr
        exact hr

/-- `pop_with_key` preserves the heap property (claim C3 support): the
`sift_down_to_bottom` run from the root ends with a `sift_up` whose start
is the root, so the repair is complete. -/
theorem popWithKey_hp {h : Heap K T} (hL : LawfulCmp h.cmp)
    (hhp : heapProp h.cmp h.data) :
    heapProp h.cmp (h.popWithKey keq).1.data := by
  unfold Heap.popWithKey
  cases hl : h.data.getLast? with
  | none => exact hhp
  | some last =>
    dsimp only
    by_cases h0 : h.data.dropLast.length = 0
    · rw [if_pos h0]
      intro i v w hi hv hw
      have hv2 : h.data.dropLast[i]? = some v := hv
      rw [List.getElem?_eq_none (by omega)] at hv2
      cases hv2
    · rw [if_neg h0]
      cases hr : h.data.dropLast[0]? with
      | none => exact hhp
      | some root =>
        dsimp only
        show heapProp h.cmp
          (siftDownToBottom keq h.cmp 0 (h.data.dropLast.set 0 last) h.keys).1
        refine siftDownToBottom_hp hL _ _ (List.getElem?_set_self (by omega)) ?_
        intro i v w hi hip hpp hv hw
        rw [List.getElem?_set_ne (fun hcon => hip hcon.symm),
          List.getElem?_dropLast] at hv
        rw [List.getElem?_set_ne (fun hcon => hpp hcon.symm),
          List.getElem?_dropLast] at hw
        by_cases hilt : i < h.data.length - 1
        · rw [if_pos hilt] at hv
          by_cases hplt : (i - 1) / 2 < h.data.length - 1
          · rw [if_pos hplt] at hw
            exact hhp i v w hi hv hw
          · rw [if_neg hplt] at hw
            cases hw
        · rw [if_neg hilt] at hv
          cases hv

theorem mem_of_some_at {A : Type} {l : List A} {i : Nat} {a : A}
    (h : l[i]? = some a) : a ∈ l := by
  obtain ⟨hlt, heq⟩ := List.getElem?_eq_some.1 h
  exact heq ▸ List.getElem_mem hlt

theorem some_at_of_mem {A : Type} {l : List A} {a : A} (h : a ∈ l) :
    ∃ i : Nat, l[i]? = some a := by
  obtain ⟨i, hi, he⟩ := List.getElem_of_mem h
  exact ⟨i, by rw [List.getElem?_eq_getElem hi, he]⟩

/-- The bottom walk only rearranges entries already present. -/
theorem siftBottomLoop_mem (endi : Nat) (elt : K × T) :
    ∀ (fuel pos : Nat) (data : List (K × T)) (keys : List (K × Nat)),
      ∀ x ∈ (siftBottomLoop keq cmp endi elt fuel pos data keys).1,
        x ∈ data := by
  intro fuel
  induction fuel with
  | zero =>
    intro pos data keys x hx
    exact hx
  | succ fuel ih =>
    intro pos data keys x
    simp only [siftBottomLoop]
    by_cases hin : 2 * pos + 1 ≤ endi - 2
    · rw [if_pos hin]
      cases hc : data[2 * pos + 1]? with
      | none =>
        cases hc1 : data[2 * pos + 1 + 1]? with
        | none => exact fun hx => hx
        | some c1 => exact fun hx => hx
      | some c =>
        cases hc1 : data[2 * pos + 1 + 1]? with
        | none => exact fun hx => hx
        | some c1 =>
          dsimp only
          by_cases hsel : cmpLe cmp c.2 c1.2 = true
          · simp only [hsel, if_true]
            intro hx
            rcases List.mem_or_eq_of_mem_set (ih _ _ _ x hx) with hx2 | rfl
            · exact hx2
            · exact mem_of_some_at hc1
          · simp only [Bool.not_eq_true] at hsel
            simp only [hsel, Bool.false_eq_true, if_false]
            intro hx
            rcases List.mem_or_eq_of_mem_set (ih _ _ _ x hx) with hx2 | rfl
            · exact hx2
            · exact mem_of_some_at hc
    · rw [if_neg hin]
      by_cases hlast : 2 * pos + 1 = endi - 1
      · rw [if_pos hlast]
        cases hc : data[2 * pos + 1]? with
        | none => exact fun hx => hx
        | some c =>
          dsimp only
          intro hx
          rcases List.mem_or_eq_of_mem_set hx with hx2 | rfl
          · exact hx2
          · exact mem_of_some_at hc
      · rw [if_neg hlast]
        exact fun hx => hx

/-- The `sift_up` loop only rearranges existing entries and the element. -/
theorem siftUpLoop_mem (start : Nat) (elt : K × T) :
    ∀ (fuel pos : Nat) (data : List (K × T)) (keys : List (K × Nat)),
      ∀ x ∈ (siftUpLoop keq cmp start elt fuel pos data keys).1,
        x ∈ data ∨ x = elt := by
  intro fuel
  induction fuel with
  | zero =>
    intro pos data keys x hx
    exact List.mem_or_eq_of_mem_set hx
  | succ fuel ih =>
    intro pos data keys x
    simp only [siftUpLoop]
    by_cases hs : start < pos
    · rw [if_pos hs]
      cases hp : data[(pos - 1) / 2]? with
      | none => exact fun hx => List.mem_or_eq_of_mem_set hx
      | some p =>
        dsimp only
        by_cases hc : cmpLe cmp elt.2 p.2 = true
        · rw [if_pos hc]
          exact fun hx => List.mem_or_eq_of_mem_set hx
        · rw [if_neg hc]
          intro hx
          rcases ih _ _ _ x hx with hx2 | hx2
          · rcases List.mem_or_eq_of_mem_set hx2 with hx3 | rfl
            · exact Or.inl hx3
            · exact Or.inl (mem_of_some_at hp)
          · exact Or.inr hx2
    · rw [if_neg hs]
      exact fun hx => List.mem_or_eq_of_mem_set hx

theorem siftUp_mem {start pos : Nat} {data : List (K × T)}
    {keys : List (K × Nat)} :
    ∀ x ∈ (siftUp keq cmp start pos data keys).1, x ∈ data := by
  intro x
  unfold siftUp
  cases hp : data[pos]? with
  | none => exact fun hx => hx
  | some elt =>
    intro hx
    rcases siftUpLoop_mem start elt _ pos data keys x hx with hx2 | rfl
    · exact hx2
    · exact mem_of_some_at hp

theorem siftDownToBottom_mem {pos : Nat} {data : List (K × T)}
    {keys : List (K × Nat)} :
    ∀ x ∈ (siftDownToBottom keq cmp pos data keys).1, x ∈ data := by
  intro x
  unfold siftDownToBottom
  cases hp : data[pos]? with
  | none => exact fun hx => hx
  | some elt =>
    dsimp only
    intro hx
    have hx2 := siftUp_mem x hx
    rcases List.mem_or_eq_of_mem_set hx2 with hx3 | rfl
    · exact siftBottomLoop_mem data.length elt _ pos data keys x hx3
    · exact mem_of_some_at hp

/-- Every entry surviving `pop_with_key` was in the original storage. -/
theorem popWithKey_mem {h : Heap K T} :
    ∀ x ∈ (h.popWithKey keq).1.data, x ∈ h.data := by
  intro x
  unfold Heap.popWithKey
  cases hl : h.data.getLast? with
  | none => exact fun hx => hx
  | some last =>
    dsimp only
    by_cases h0 : h.data.dropLast.length = 0
    · rw [if_pos h0]
      intro hx
      have hx2 : x ∈ h.data.dropLast := hx
      exact List.dropLast_subset h.data hx2
    · rw [if_neg h0]
      cases hr : h.data.dropLast[0]? with
      | none => exact fun hx => hx
      | some root =>
        dsimp only
        intro hx
        have hx2 : x ∈ (siftDownToBottom keq h.cmp 0
            (h.data.dropLast.set 0 last) h.keys).1 := hx
        have hx3 := siftDownToBottom_mem x hx2
        rcases List.mem_or_eq_of_mem_set hx3 with hx4 | rfl
        · exact List.dropLast_subset h.data hx4
        · rw [List.getLast?_eq_getElem?] at hl
          exact mem_of_some_at hl

/-- In a heap the root dominates every entry. -/
theorem heapProp_root_max (hL : LawfulCmp cmp) {l : List (K × T)}
    (hhp : heapProp cmp l) {r0 : K × T} (hr : l[0]? = some r0) :
    ∀ (i : Nat) (v : K × T), l[i]? = some v → cmp v.2 r0.2 ≠ .gt := by
  intro i
  induction i using Nat.strong_induction_on with
  | _ i ih =>
    intro v hv
    cases Nat.eq_zero_or_pos i with
    | inl h0 =>
      subst h0
      rw [hr] at hv
      obtain rfl : r0 = v := Option.some.inj hv
      intro hgt
      have hlt := (hL.flip r0.2 r0.2).1 hgt
      rw [hgt] at hlt
      cases hlt
    | inr hi =>
      have hparlt : (i - 1) / 2 < l.length := by
        have := (List.getElem?_eq_some.1 hv).1
        omega
      cases hp : l[(i - 1) / 2]? with
      | none =>
        rw [List.getElem?_eq_getElem hparlt] at hp
        cases hp
      | some p =>
        have h1 : cmp v.2 p.2 ≠ .gt := hhp i v p hi hv hp
        have h2 : cmp p.2 r0.2 ≠ .gt := ih ((i - 1) / 2) (by omega) p hp
        exact hL.le_trans v.2 p.2 r0.2 h1 h2

/-- Claim C3, general part: successive pops return values in
non-increasing comparator order. -/
theorem popList_chain (hkl : KeqLawful keq) (c : T → T → Ordering)
    (hL : LawfulCmp c) :
    ∀ (n : Nat) (h : Heap K T), h.cmp = c → Valid keq h →
      heapProp c h.data →
      List.Chain' (fun a b => c b a ≠ .gt) (Heap.popList keq n h) := by
  intro n
  induction n with
  | zero =>
    intro h _ _ _
    simp [Heap.popList]
  | succ n ih =>
    intro h hc hV hhp
    simp only [Heap.popList]
    cases hpop : (h.popWithKey keq).2 with
    | none => simp
    | some kv =>
      dsimp only
      rw [List.chain'_cons']
      have hc1 : (h.popWithKey keq).1.cmp = c := by
        rw [popWithKey_cmp]
        exact hc
      have hV1 : Valid keq (h.popWithKey keq).1 := popWithKey_valid hkl hV
      have hhp1 : heapProp c (h.popWithKey keq).1.data := by
        have hx := @popWithKey_hp K T keq h (by rw [hc]; exact hL)
          (by rw [hc]; exact hhp)
        rw [hc] at hx
        exact hx
      refine ⟨?_, ih (h.popWithKey keq).1 hc1 hV1 hhp1⟩
      intro y hy
      cases n with
      | zero =>
        simp [Heap.popList] at hy
      | succ m =>
        simp only [Heap.popList] at hy
        cases hpop1 : ((h.popWithKey keq).1.popWithKey keq).2 with
        | none =>
          rw [hpop1] at hy
          simp at hy
        | some kv1 =>
          rw [hpop1] at hy
          simp only [List.head?_cons, Option.mem_def, Option.some.injEq] at hy
          subst hy
          have hroot1 := @popWithKey_returns_root K T keq (h.popWithKey keq).1
            kv1 hpop1
          have hmem1 : kv1 ∈ (h.popWithKey keq).1.data :=
            mem_of_some_at hroot1
          have hmem0 : kv1 ∈ h.data := popWithKey_mem kv1 hmem1
          obtain ⟨j, hj⟩ := some_at_of_mem hmem0
          have hroot := @popWithKey_returns_root K T keq h kv hpop
          have hx := heapProp_root_max hL hhp hroot j kv1 hj
          exact hx

theorem set_self_of_some {A : Type} {l : List A} {i : Nat} {a : A}
    (h : l[i]? = some a) : l.set i a = l := by
  apply List.ext_getElem?
  intro n
  by_cases hn : n = i
  · subst hn
    rw [List.getElem?_set_self (List.getElem?_eq_some.1 h).1, h]
  · rw [List.getElem?_set_ne (fun hcon => hn hcon.symm)]

/-- `push` on an absent key: appends the pair, sifts it up, returns
`none`; the heap property is preserved and the new key is indexed. -/
theorem push_absent_spec (hkl : KeqLawful keq) {h : Heap K T}
    (hL : LawfulCmp h.cmp) (hV : Valid keq h) (hhp : heapProp h.cmp h.data)
    {k : K} (v : T) (hget : alGet keq h.keys k = none) :
    (h.push keq k v).2 = none ∧
    (h.push keq k v).1.data.length = h.data.length + 1 ∧
    heapProp h.cmp (h.push keq k v).1.data ∧
    ∃ p' : Nat, alGet keq (h.push keq k v).1.keys k = some p' ∧
      (h.push keq k v).1.data[p']? = some (k, v) := by
  have helt : (h.data ++ [(k, v)])[h.data.length]? = some (k, v) := by
    simpa using List.getElem?_concat_length h.data (k, v)
  have hV2 : Valid keq ⟨h.data ++ [(k, v)],
      alInsert keq h.keys k h.data.length, h.cmp⟩ :=
    insert_pair_valid hkl hV v hget
  have hout := @siftUp_out K T keq h.cmp hkl 0 h.data.length
    (h.data ++ [(k, v)]) (alInsert keq h.keys k h.data.length) (k, v) helt
    (valid_holeInv hkl hV2 helt)
  have hE : hpE h.cmp (h.data ++ [(k, v)]) h.data.length := by
    intro i v2 w hi hip hpp hv hw
    have hilt : i < h.data.length := by
      have hib := (List.getElem?_eq_some.1 hv).1
      rw [List.length_append, List.length_singleton] at hib
      omega
    have hplt : (i - 1) / 2 < h.data.length := by omega
    rw [List.getElem?_append, if_pos hilt] at hv
    rw [List.getElem?_append, if_pos hplt] at hw
    exact hhp i v2 w hi hv hw
  have hG : hpG h.cmp (h.data ++ [(k, v)]) h.data.length := by
    intro c v2 w hq0 hcq hv hw
    have hnone : (h.data ++ [(k, v)])[c]? = none := by
      apply List.getElem?_eq_none
      rw [List.length_append, List.length_singleton]
      omega
    rw [hnone] at hv
    exact absurd hv (by simp)
  have hD : hpD h.cmp (h.data ++ [(k, v)]) (k, v) h.data.length := by
    intro c v2 hc0 hcq hv
    have hnone : (h.data ++ [(k, v)])[c]? = none := by
      apply List.getElem?_eq_none
      rw [List.length_append, List.length_singleton]
      omega
    rw [hnone] at hv
    exact absurd hv (by simp)
  have hhp2 := (@siftUp_hp K T keq h.cmp hL h.data.length (h.data ++ [(k, v)])
    (alInsert keq h.keys k h.data.length) (k, v) helt hE hG).1 hD
  have hlen2 : (siftUp keq h.cmp 0 h.data.length (h.data ++ [(k, v)])
      (alInsert keq h.keys k h.data.length)).1.length =
      (h.data ++ [(k, v)]).length := hout.len_data
  unfold Heap.push
  rw [hget]
  refine ⟨rfl, ?_, hhp2, ?_⟩
  · show (siftUp keq h.cmp 0 h.data.length (h.data ++ [(k, v)])
      (alInsert keq h.keys k h.data.length)).1.length = h.data.length + 1
    rw [hlen2, List.length_append, List.length_singleton]
  · exact ⟨(siftUp keq h.cmp 0 h.data.length (h.data ++ [(k, v)])
      (alInsert keq h.keys k h.data.length)).2.2,
      hout.consist _ _ hout.elt_at, hout.elt_at⟩

/-- `push` on a present key: swaps the new value into the slot keeping the
stored key object, runs `update`, and returns the old value. -/
theorem push_present_spec (hkl : KeqLawful keq) {h : Heap K T}
    (hL : LawfulCmp h.cmp) (hV : Valid keq h) (hhp : heapProp h.cmp h.data)
    {k : K} (v : T) {pos : Nat} (hget : alGet keq h.keys k = some pos) :
    ∃ kv : K × T, h.data[pos]? = some kv ∧ keq kv.1 k = true ∧
      (h.push keq k v).2 = some kv.2 ∧
      (h.push keq k v).1.data.length = h.data.length ∧
      heapProp h.cmp (h.push keq k v).1.data ∧
      Valid keq (h.push keq k v).1 ∧
      ∃ p' : Nat, alGet keq (h.push keq k v).1.keys k = some p' ∧
        (h.push keq k v).1.data[p']? = some (kv.1, v) := by
  obtain ⟨kv, hkv, hkeq⟩ := alGet_pos_data hkl hV hget
  have hlen : pos < h.data.length := (List.getElem?_eq_some.1 hkv).1
  have hV2 : Valid keq { h with data := h.data.set pos (kv.1, v) } :=
    valid_set_value hkl hV hkv v
  have helt2 : ({ h with data := h.data.set pos (kv.1, v) } :
      Heap K T).data[pos]? = some (kv.1, v) := List.getElem?_set_self hlen
  have hget2 : alGet keq ({ h with data := h.data.set pos (kv.1, v) } :
      Heap K T).keys k = some pos := hget
  have hupd : ({ h with data := h.data.set pos (kv.1, v) } :
      Heap K T).update keq k =
      some (({ h with data := h.data.set pos (kv.1, v) } :
        Heap K T).updateAt keq pos) := by
    unfold Heap.update
    rw [hget2]
    rfl
  have hVout : Valid keq (({ h with data := h.data.set pos (kv.1, v) } :
      Heap K T).updateAt keq pos) := updateAt_valid hkl hV2 helt2
  obtain ⟨p', hout⟩ := updateAt_out hkl _ helt2 (valid_holeInv hkl hV2 helt2)
  have hA : heapProp h.cmp ((h.data.set pos (kv.1, v)).set pos
      ((kv.1, v).1, kv.2)) := by
    show heapProp h.cmp ((h.data.set pos (kv.1, v)).set pos kv)
    rw [List.set_set, set_self_of_some hkv]
    exact hhp
  have hL2 : LawfulCmp ({ h with data := h.data.set pos (kv.1, v) } :
      Heap K T).cmp := hL
  have hhpout : heapProp h.cmp ((({ h with
      data := h.data.set pos (kv.1, v) } :
      Heap K T)).updateAt keq pos).data := updateAt_hp hkl hL2 hV2 helt2 hA
  have hlenout : ((({ h with data := h.data.set pos (kv.1, v) } :
      Heap K T)).updateAt keq pos).data.length =
      (h.data.set pos (kv.1, v)).length := hout.len_data
  have heltout : ((({ h with data := h.data.set pos (kv.1, v) } :
      Heap K T)).updateAt keq pos).data[p']? = some (kv.1, v) := hout.elt_at
  have hconsout : alGet keq ((({ h with
      data := h.data.set pos (kv.1, v) } :
      Heap K T)).updateAt keq pos).keys kv.1 = some p' :=
    hout.consist p' (kv.1, v) heltout
  unfold Heap.push
  rw [hget]
  dsimp only
  rw [hkv]
  dsimp only
  rw [hupd]
  refine ⟨kv, rfl, hkeq, rfl, ?_, hhpout, hVout, ⟨p', ?_, heltout⟩⟩
  · rw [hlenout, List.length_set]
  · rw [← alGet_congr hkl _ hkeq]
    exact hconsout

end HeapOrder

/-- The 13-element max-order heap of claim C3, built by pushing the values
`[2,4,6,2,1,8,10,3,5,7,0,9,1]` with keys `0..12`. -/
def exampleC3Heap : Heap Nat Nat :=
  Heap.pushList natKeq natEmpty
    [(0,2),(1,4),(2,6),(3,2),(4,1),(5,8),(6,10),(7,3),(8,5),(9,7),(10,0),
     (11,9),(12,1)]

/-- C3: popping the 13-element example heap yields the descending sort of
the pushed multiset and then nothing more (14 attempted pops return the
same 13 values); generally, on any valid heap satisfying the heap
property, successive pops return values in non-increasing comparator
order. -/
theorem c3_pop_ordering :
    Heap.popList natKeq 13 exampleC3Heap =
      [10, 9, 8, 7, 6, 5, 4, 3, 2, 2, 1, 1, 0] ∧
    Heap.popList natKeq 14 exampleC3Heap =
      [10, 9, 8, 7, 6, 5, 4, 3, 2, 2, 1, 1, 0] ∧
    ∀ (K T : Type) (keq : K → K → Bool) (c : T → T → Ordering) (n : Nat)
      (h : Heap K T), KeqLawful keq → LawfulCmp c → h.cmp = c →
      Valid keq h → heapProp c h.data →
      List.Chain' (fun a b => c b a ≠ .gt) (Heap.popList keq n h) :=
  ⟨by decide, by decide,
    fun K T keq c n h hkl hL hc hV hhp => popList_chain hkl c hL n h hc hV hhp⟩

/-- Witness for C3: the general non-increasing-pops statement applied to
the 7-element example heap. -/
theorem c3_witness :
    KeqLawful natKeq ∧ LawfulCmp natCmp ∧ exampleRemoveHeap.cmp = natCmp ∧
    Valid natKeq exampleRemoveHeap ∧
    heapProp natCmp exampleRemoveHeap.data ∧
    List.Chain' (fun a b => natCmp b a ≠ .gt)
      (Heap.popList natKeq 7 exampleRemoveHeap) :=
  ⟨natKeq_lawful, natCmp_lawful, rfl, (validB_iff _ _).1 (by decide),
    (heapPropB_iff _ _).1 (by decide),
    c3_pop_ordering.2.2 Nat Nat natKeq natCmp 7 exampleRemoveHeap
      natKeq_lawful natCmp_lawful rfl ((validB_iff _ _).1 (by decide))
      ((heapPropB_iff _ _).1 (by decide))⟩

/-- Key equality looking only at the first component: two structurally
different key objects can be equal, exposing which object is stored. -/
def pairKeq : Nat × Nat → Nat × Nat → Bool := fun a b => a.1 == b.1

theorem pairKeq_lawful : KeqLawful pairKeq := by
  refine ⟨?_, ?_, ?_⟩ <;> simp +contextual [pairKeq]

/-- A 3-element max-order heap with pair keys `(0,0), (1,0), (2,0)`. -/
def examplePairHeap : Heap (Nat × Nat) Nat :=
  Heap.pushList pairKeq { data := [], keys := [], cmp := natCmp }
    [((0,0),5),((1,0),3),((2,0),4)]

/-- C6: pushing onto a present key returns the old value, keeps the
length, re-establishes the heap property, and leaves exactly one entry
for the key, holding the originally stored key object and the new value;
pushing onto an absent key appends the pair, returns `none`, and keeps
the heap property. -/
theorem c6_push_existing_key {K T : Type} (keq : K → K → Bool)
    (h : Heap K T) (k : K) (v2 : T) (hkl : KeqLawful keq)
    (hL : LawfulCmp h.cmp) (hV : Valid keq h)
    (hhp : heapProp h.cmp h.data) :
    (∀ pos : Nat, alGet keq h.keys k = some pos →
      ∃ kv : K × T, h.data[pos]? = some kv ∧
        (h.push keq k v2).2 = some kv.2 ∧
        (h.push keq k v2).1.data.length = h.data.length ∧
        heapProp h.cmp (h.push keq k v2).1.data ∧
        ∃ p' : Nat, alGet keq (h.push keq k v2).1.keys k = some p' ∧
          (h.push keq k v2).1.data[p']? = some (kv.1, v2) ∧
          ∀ (q : Nat) (qv : K × T),
            (h.push keq k v2).1.data[q]? = some qv →
            keq qv.1 k = true → q = p') ∧
    (alGet keq h.keys k = none →
      (h.push keq k v2).2 = none ∧
      (h.push keq k v2).1.data.length = h.data.length + 1 ∧
      heapProp h.cmp (h.push keq k v2).1.data ∧
      ∃ p' : Nat, alGet keq (h.push keq k v2).1.keys k = some p' ∧
        (h.push keq k v2).1.data[p']? = some (k, v2)) := by
  constructor
  · intro pos hget
    obtain ⟨kv, hkv, hkeq, hsnd, hlen, hhp2, hV2, p', hpl, hpe⟩ :=
      push_present_spec hkl hL hV hhp v2 hget
    refine ⟨kv, hkv, hsnd, hlen, hhp2, p', hpl, hpe, ?_⟩
    intro q qv hq hkq
    have hc := hV2.consist q qv hq
    rw [alGet_congr hkl _ hkq] at hc
    rw [hpl] at hc
    exact (Option.some.inj hc).symm
  · intro hget
    exact push_absent_spec hkl hL hV hhp v2 hget

/-- Witness for C6: pushing `((1,99), 7)` onto the pair-keyed heap whose
stored key object for that slot is `(1,0)`. -/
theorem c6_witness :
    KeqLawful pairKeq ∧ LawfulCmp examplePairHeap.cmp ∧
    Valid pairKeq examplePairHeap ∧
    heapProp examplePairHeap.cmp examplePairHeap.data ∧
    alGet pairKeq examplePairHeap.keys (1, 99) = some 1 ∧
    ∃ kv : (Nat × Nat) × Nat, examplePairHeap.data[1]? = some kv ∧
      (examplePairHeap.push pairKeq (1, 99) 7).2 = some kv.2 ∧
      (examplePairHeap.push pairKeq (1, 99) 7).1.data.length =
        examplePairHeap.data.length ∧
      heapProp examplePairHeap.cmp
        (examplePairHeap.push pairKeq (1, 99) 7).1.data ∧
      ∃ p' : Nat,
        alGet pairKeq (examplePairHeap.push pairKeq (1, 99) 7).1.keys
          (1, 99) = some p' ∧
        (examplePairHeap.push pairKeq (1, 99) 7).1.data[p']? =
          some (kv.1, 7) ∧
        ∀ (q : Nat) (qv : (Nat × Nat) × Nat),
          (examplePairHeap.push pairKeq (1, 99) 7).1.data[q]? = some qv →
          pairKeq qv.1 (1, 99) = true → q = p' :=
  ⟨pairKeq_lawful, natCmp_lawful, (validB_iff _ _).1 (by decide),
    (heapPropB_iff _ _).1 (by decide), by decide,
    (c6_push_existing_key pairKeq examplePairHeap (1, 99) 7 pairKeq_lawful
      natCmp_lawful ((validB_iff _ _).1 (by decide))
      ((heapPropB_iff _ _).1 (by decide))).1 1 (by decide)⟩

/-- A valid 3-element max-order heap whose value at position 1 (key 1)
has been mutated from 3 to 99, breaking the order only there. -/
def exampleMutHeap : Heap Nat Nat :=
  { data := [(0,10),(1,99),(2,5)], keys := [(0,0),(1,1),(2,2)],
    cmp := natCmp }

/-- C8: on a valid heap whose heap property was broken only by mutating
the value stored at key `k` (formally: rewriting that slot back to some
value `v0` satisfies the heap property), `update(k)` succeeds and
restores the heap property everywhere. -/
theorem c8_update_two_phase {K T : Type} (keq : K → K → Bool)
    (h : Heap K T) (k : K) (pos : Nat) (kv : K × T) (v0 : T)
    (hkl : KeqLawful keq) (hL : LawfulCmp h.cmp) (hV : Valid keq h)
    (hget : alGet keq h.keys k = some pos)
    (helt : h.data[pos]? = some kv)
    (hA : heapProp h.cmp (h.data.set pos (kv.1, v0))) :
    ∃ h' : Heap K T, h.update keq k = some h' ∧ heapProp h.cmp h'.data := by
  refine ⟨h.updateAt keq pos, ?_, updateAt_hp hkl hL hV helt hA⟩
  unfold Heap.update
  rw [hget]
  rfl

/-- Witness for C8: repairing the mutated example heap at key 1. -/
theorem c8_witness :
    KeqLawful natKeq ∧ LawfulCmp exampleMutHeap.cmp ∧
    Valid natKeq exampleMutHeap ∧
    alGet natKeq exampleMutHeap.keys 1 = some 1 ∧
    exampleMutHeap.data[1]? = some (1, 99) ∧
    heapProp exampleMutHeap.cmp (exampleMutHeap.data.set 1 (1, 3)) ∧
    ∃ h' : Heap Nat Nat, exampleMutHeap.update natKeq 1 = some h' ∧
      heapProp exampleMutHeap.cmp h'.data :=
  ⟨natKeq_lawful, natCmp_lawful, (validB_iff _ _).1 (by decide), by decide,
    by decide, (heapPropB_iff _ _).1 (by decide),
    c8_update_two_phase natKeq exampleMutHeap 1 1 (1, 99) 3 natKeq_lawful
      natCmp_lawful ((validB_iff _ _).1 (by decide)) (by decide) (by decide)
      ((heapPropB_iff _ _).1 (by decide))⟩

end MutBinaryHeap
